import Mathlib

/-!
Verification of the TDD-based C→C# migration pipeline.

Shallow embedding of the pipeline's core routines, translated from the
Python sources:
  * src/src/test_generator/klee_wrapper.py      (KleeWrapper._remove_main_function)
  * src/src/test_runner/c_test_runner.py        (CTestRunner._remove_main_function,
                                                 CTestRunner._parse_test_output)
  * src/src/validator/output_validator.py       (OutputValidator.validate,
                                                 _compare_values, _compare_floats)
  * src/src/core/dependencies_analysis.py       (topological_sort, find_cycles_dfs)
  * src/src/core/models/dependency_graph.py     (DependencyGraph.get_conversion_order)
  * src/src/test_generator/input_generator.py   (InputGenerator.generate_combinations)
  * src/src/converter/gemini_c_to_csharp_converter.py
      (RateLimiter.handle_quota_error, _extract_retry_delay,
       _assemble_csharp_code, _post_process_code)

Python strings are modelled as `List Char`, dicts as insertion-ordered
association lists, sets as duplicate-free lists, and Python ints as `Int`
(arbitrary precision, no overflow).  Python floats are modelled as exact
rationals extended with NaN and signed infinities.
-/

namespace Pipeline

/-! ## Python string primitives -/

/-- Python `\s` (ASCII fragment): the whitespace characters recognised by
`re` in the sources' line-based regexes. -/
def pyIsSpace (c : Char) : Bool :=
  c = ' ' || c = '\t' || c = '\n' || c = '\r' || c = '\x0b' || c = '\x0c'

/-- Python `str.split('\n')`: splitting on newlines, keeping empty parts.
`splitLines [] = [[]]` just as `''.split('\n') == ['']`. -/
def splitLines (s : List Char) : List (List Char) :=
  s.splitOn '\n'

theorem splitLines_ne_nil (s : List Char) : splitLines s ≠ [] :=
  List.splitOnP_ne_nil _ s

theorem splitLines_nil : splitLines [] = [[]] := rfl

theorem splitLines_cons_nl (r : List Char) :
    splitLines ('\n' :: r) = [] :: splitLines r := by
  simp [splitLines, List.splitOn]

theorem splitLines_cons_ne (c : Char) (r : List Char) (h : c ≠ '\n') :
    splitLines (c :: r) = (c :: (splitLines r).headI) :: (splitLines r).tail := by
  simp only [splitLines, List.splitOn, List.splitOnP_cons]
  rw [if_neg (by simpa using h)]
  cases hr : r.splitOnP (· == '\n') with
  | nil => exact absurd hr (List.splitOnP_ne_nil _ r)
  | cons l ls => simp

/-- Lines produced by `splitLines` never contain a newline. -/
theorem splitLines_no_newline (s : List Char) :
    ∀ l ∈ splitLines s, '\n' ∉ l := by
  induction s with
  | nil =>
    intro l hl
    rw [splitLines_nil, List.mem_singleton] at hl
    simp [hl]
  | cons c r ih =>
    intro l hl
    by_cases hc : c = '\n'
    · subst hc
      rw [splitLines_cons_nl, List.mem_cons] at hl
      rcases hl with hl | hl
      · simp [hl]
      · exact ih l hl
    · rw [splitLines_cons_ne c r hc, List.mem_cons] at hl
      rcases hl with hl | hl
      · subst hl
        intro hmem
        rcases List.mem_cons.mp hmem with hmem | hmem
        · exact hc hmem.symm
        · have hhead : (splitLines r).headI ∈ splitLines r := by
            cases hsp : splitLines r with
            | nil => exact absurd hsp (splitLines_ne_nil r)
            | cons a as => simp
          exact ih _ hhead hmem
      · exact ih l (List.mem_of_mem_tail hl)

/-- `'\n'.join` on a list of lines. -/
def joinLines (L : List (List Char)) : List Char :=
  List.intercalate ['\n'] L

/-- If no line contains a newline, `splitLines` inverts `joinLines`. -/
theorem splitLines_joinLines (L : List (List Char)) (hne : L ≠ [])
    (hnl : ∀ l ∈ L, '\n' ∉ l) : splitLines (joinLines L) = L :=
  List.splitOn_intercalate L '\n' hnl hne

/-! ## `re.sub(r'\n{3,}', '\n\n', s)`

Collapsing every maximal run of three or more newlines to exactly two.
Implemented with an accumulator `k` counting how many newlines of the
current run have already been emitted (capped at 2): every maximal run
of `m ≥ 3` newlines emits exactly two, shorter runs are kept intact. -/

def collapseAux : List Char → Nat → List Char
  | [], _ => []
  | c :: rest, k =>
    if c = '\n' then
      if k < 2 then '\n' :: collapseAux rest (k + 1)
      else collapseAux rest k
    else
      c :: collapseAux rest 0

def collapseBlankRuns (s : List Char) : List Char :=
  collapseAux s 0

theorem collapseAux_cons_nl (r : List Char) (k : Nat) (h : k < 2) :
    collapseAux ('\n' :: r) k = '\n' :: collapseAux r (k + 1) := by
  simp [collapseAux, h]

theorem collapseAux_cons_nl_cap (r : List Char) :
    collapseAux ('\n' :: r) 2 = collapseAux r 2 := by
  simp [collapseAux]

theorem collapseAux_cons_ne (c : Char) (r : List Char) (k : Nat)
    (h : c ≠ '\n') : collapseAux (c :: r) k = c :: collapseAux r 0 := by
  simp [collapseAux, h]

/-- For a run-counter still below the cap, collapsing does not change the
first line. -/
theorem collapseAux_headI (s : List Char) (k : Nat) (hk : k ≤ 1) :
    (splitLines (collapseAux s k)).headI = (splitLines s).headI := by
  induction s generalizing k with
  | nil => rfl
  | cons c r ih =>
    by_cases hc : c = '\n'
    · subst hc
      rw [collapseAux_cons_nl r k (by omega), splitLines_cons_nl,
        splitLines_cons_nl]
      simp
    · rw [collapseAux_cons_ne c r k hc, splitLines_cons_ne c _ hc,
        splitLines_cons_ne c _ hc, ih 0 (by omega)]
      simp

/-- Joint line-preservation statement for the collapse, indexed by the
run counter. -/
theorem collapseAux_pred (P : List Char → Prop) :
    ∀ s : List Char,
      ((∀ k, k ≤ 1 → (∀ l ∈ (splitLines s).tail, P l) →
        ∀ l ∈ (splitLines (collapseAux s k)).tail, P l) ∧
       ((∀ l ∈ splitLines s, P l) →
        ∀ l ∈ splitLines (collapseAux s 2), P l)) := by
  intro s
  induction s with
  | nil =>
    constructor
    · intro k _ h
      exact h
    · intro h l hl
      exact h l hl
  | cons c r ih =>
    constructor
    · intro k hk h
      by_cases hc : c = '\n'
      · subst hc
        rw [collapseAux_cons_nl r k (by omega), splitLines_cons_nl,
          List.tail_cons]
        rw [splitLines_cons_nl, List.tail_cons] at h
        rcases Nat.lt_or_ge k 1 with hk1 | hk1
        · -- next counter k+1 ≤ 1: head line via `collapseAux_headI`
          intro l hl
          have hsp : splitLines (collapseAux r (k + 1)) =
              (splitLines (collapseAux r (k + 1))).headI ::
              (splitLines (collapseAux r (k + 1))).tail := by
            cases hx : splitLines (collapseAux r (k + 1)) with
            | nil => exact absurd hx (splitLines_ne_nil _)
            | cons a as => simp
          rw [hsp, List.mem_cons] at hl
          rcases hl with hl | hl
          · subst hl
            rw [collapseAux_headI r (k + 1) (by omega)]
            have hmem : (splitLines r).headI ∈ splitLines r := by
              cases hx : splitLines r with
              | nil => exact absurd hx (splitLines_ne_nil _)
              | cons a as => simp
            exact h _ hmem
          · exact ih.1 (k + 1) (by omega)
              (fun m hm => h m (List.mem_of_mem_tail hm)) l hl
        · -- k = 1, next counter is 2: use the all-lines part
          have hk2 : k + 1 = 2 := by omega
          rw [hk2]
          exact ih.2 h
      · rw [collapseAux_cons_ne c r k hc, splitLines_cons_ne c _ hc,
          List.tail_cons]
        rw [splitLines_cons_ne c _ hc, List.tail_cons] at h
        exact ih.1 0 (by omega) h
    · intro h
      by_cases hc : c = '\n'
      · subst hc
        rw [collapseAux_cons_nl_cap r]
        rw [splitLines_cons_nl] at h
        exact ih.2 (fun m hm => h m (List.mem_cons_of_mem _ hm))
      · rw [collapseAux_cons_ne c r 2 hc]
        rw [splitLines_cons_ne c _ hc] at h ⊢
        intro l hl
        rw [List.mem_cons] at hl
        rcases hl with hl | hl
        · subst hl
          rw [collapseAux_headI r 0 (by omega)]
          exact h _ (List.mem_cons_self _ _)
        · exact ih.1 0 (by omega)
            (fun m hm => h _ (List.mem_cons_of_mem _ hm)) l hl

/-- Collapsing blank runs preserves any property of the lines. -/
theorem collapseBlankRuns_lines_pred (P : List Char → Prop)
    (s : List Char) (h : ∀ l ∈ splitLines s, P l) :
    ∀ l ∈ splitLines (collapseBlankRuns s), P l := by
  intro l hl
  have hsp : splitLines (collapseBlankRuns s) =
      (splitLines (collapseBlankRuns s)).headI ::
      (splitLines (collapseBlankRuns s)).tail := by
    cases hx : splitLines (collapseBlankRuns s) with
    | nil => exact absurd hx (splitLines_ne_nil _)
    | cons a as => simp
  rw [hsp, List.mem_cons] at hl
  rcases hl with hl | hl
  · subst hl
    rw [collapseBlankRuns, collapseAux_headI s 0 (by omega)]
    have hmem : (splitLines s).headI ∈ splitLines s := by
      cases hx : splitLines s with
      | nil => exact absurd hx (splitLines_ne_nil _)
      | cons a as => simp
    exact h _ hmem
  · exact (collapseAux_pred P s).1 0 (by omega)
      (fun m hm => h m (List.mem_of_mem_tail hm)) l hl

/-! ## `_remove_main_function` (klee_wrapper.py and c_test_runner.py)

Both files carry a line-oriented main-stripper built around the regex
`^\s*(int|void)\s+main\s*\(` and brace counting.  The two copies differ
only in the placement of a `continue` inside the `in_main` branch. -/

/-- Python `re.match(r'\s*(int|void)\s+main\s*\(', line)` as a Boolean
test.  The regex is anchored at the start of the line; since `int`/`void`
cannot begin with whitespace and `main` cannot begin with whitespace,
maximal munch for each `\s*`/`\s+` is equivalent to backtracking. -/
def isMainLine (line : List Char) : Bool :=
  let l1 := line.dropWhile pyIsSpace
  let afterType : Option (List Char) :=
    if List.isPrefixOf "int".toList l1 then some (l1.drop 3)
    else if List.isPrefixOf "void".toList l1 then some (l1.drop 4)
    else none
  match afterType with
  | none => false
  | some r =>
    match r with
    | [] => false
    | c :: _ =>
      pyIsSpace c &&
      (let r2 := r.dropWhile pyIsSpace
       List.isPrefixOf "main".toList r2 &&
       (match (r2.drop 4).dropWhile pyIsSpace with
        | '(' :: _ => true
        | _ => false))

/-- `line.count('\x7b') - line.count('\x7d')`: net brace depth change. -/
def braceDelta (line : List Char) : Int :=
  (line.count '\x7b' : Int) - (line.count '\x7d' : Int)

/-- The line filter of `KleeWrapper._remove_main_function`
(klee_wrapper.py lines 598-615).  State: `(in_main, brace_count)`.
In this copy, the `continue` sits inside `if brace_count <= 0:`; a line
processed with `in_main` still true falls through to `if not in_main:`
and is dropped either way. -/
def kleeFilterMain : List (List Char) → Bool → Int → List (List Char)
  | [], _, _ => []
  | line :: rest, inMain, braceCount =>
    if isMainLine line then
      kleeFilterMain rest true (braceDelta line)
    else if inMain then
      let bc := braceCount + braceDelta line
      if bc ≤ 0 then kleeFilterMain rest false bc
      else kleeFilterMain rest true bc
    else
      line :: kleeFilterMain rest inMain braceCount

/-- The line filter of `CTestRunner._remove_main_function`
(c_test_runner.py lines 288-305).  In this copy the `continue` is
unconditional inside the `in_main` branch. -/
def runnerFilterMain : List (List Char) → Bool → Int → List (List Char)
  | [], _, _ => []
  | line :: rest, inMain, braceCount =>
    if isMainLine line then
      runnerFilterMain rest true (braceDelta line)
    else if inMain then
      let bc := braceCount + braceDelta line
      runnerFilterMain rest (if bc ≤ 0 then false else true) bc
    else
      line :: runnerFilterMain rest inMain braceCount

/-- `KleeWrapper._remove_main_function`: split, filter, join, collapse
blank runs. -/
def kleeRemoveMainFunction (source_code : List Char) : List Char :=
  collapseBlankRuns (joinLines (kleeFilterMain (splitLines source_code) false 0))

/-- `CTestRunner._remove_main_function`. -/
def runnerRemoveMainFunction (source_code : List Char) : List Char :=
  collapseBlankRuns (joinLines (runnerFilterMain (splitLines source_code) false 0))

theorem kleeFilterMain_eq_runnerFilterMain (L : List (List Char))
    (b : Bool) (c : Int) : kleeFilterMain L b c = runnerFilterMain L b c := by
  induction L generalizing b c with
  | nil => rfl
  | cons line rest ih =>
    simp only [kleeFilterMain, runnerFilterMain]
    by_cases h1 : isMainLine line
    · simp [h1, ih]
    · simp only [h1, Bool.false_eq_true, if_false]
      by_cases h2 : b
      · simp only [h2, if_true]
        by_cases h3 : c + braceDelta line ≤ 0
        · simp [h3, ih]
        · simp [h3, ih]
      · simp [h2, ih]

/-- Every line kept by the klee filter comes from the input and fails the
main-line test. -/
theorem kleeFilterMain_mem (L : List (List Char)) (b : Bool) (c : Int) :
    ∀ l ∈ kleeFilterMain L b c, isMainLine l = false ∧ l ∈ L := by
  induction L generalizing b c with
  | nil => intro l hl; simp [kleeFilterMain] at hl
  | cons line rest ih =>
    intro l hl
    simp only [kleeFilterMain] at hl
    by_cases h1 : isMainLine line
    · rw [if_pos h1] at hl
      obtain ⟨hm, hmem⟩ := ih _ _ l hl
      exact ⟨hm, List.mem_cons_of_mem _ hmem⟩
    · rw [if_neg h1] at hl
      by_cases h2 : b
      · rw [if_pos h2] at hl
        by_cases h3 : c + braceDelta line ≤ 0
        · rw [if_pos h3] at hl
          obtain ⟨hm, hmem⟩ := ih _ _ l hl
          exact ⟨hm, List.mem_cons_of_mem _ hmem⟩
        · rw [if_neg h3] at hl
          obtain ⟨hm, hmem⟩ := ih _ _ l hl
          exact ⟨hm, List.mem_cons_of_mem _ hmem⟩
      · rw [if_neg h2, List.mem_cons] at hl
        rcases hl with hl | hl
        · subst hl
          exact ⟨by simpa using h1, List.mem_cons_self _ _⟩
        · obtain ⟨hm, hmem⟩ := ih _ _ l hl
          exact ⟨hm, List.mem_cons_of_mem _ hmem⟩

/-- C5: for every C source text, the symbolic driver's main removal
(`KleeWrapper._remove_main_function`) returns a text with zero remaining
lines matching `^\s*(int|void)\s+main\s*\(`: every matched line starts a
skip (dropping the body until brace depth returns to zero) and is itself
dropped, and collapsing blank runs introduces no new line content. -/
theorem C5_remove_main_leaves_no_main_definition (source_code : List Char) :
    ∀ l ∈ splitLines (kleeRemoveMainFunction source_code),
      isMainLine l = false := by
  unfold kleeRemoveMainFunction
  cases hF : kleeFilterMain (splitLines source_code) false 0 with
  | nil =>
    intro l hl
    have hj : collapseBlankRuns (joinLines []) = [] := rfl
    rw [hj, splitLines_nil, List.mem_singleton] at hl
    subst hl
    rfl
  | cons f fs =>
    intro l hl
    refine collapseBlankRuns_lines_pred (fun m => isMainLine m = false) _
      ?_ l hl
    rw [splitLines_joinLines (f :: fs) (by simp) ?hnl]
    · intro m hm
      rw [← hF] at hm
      exact (kleeFilterMain_mem _ _ _ m hm).1
    case hnl =>
      intro m hm
      rw [← hF] at hm
      exact splitLines_no_newline source_code m
        (kleeFilterMain_mem _ _ _ m hm).2

/-- Witness for C5 on a concrete source containing a `main` definition. -/
theorem C5_witness :
    ("b".toList ∈ splitLines (kleeRemoveMainFunction
        ("a\nint main()\x7b\nx\n\x7d\nb").toList)) ∧
    isMainLine "b".toList = false :=
  ⟨by decide,
   C5_remove_main_leaves_no_main_definition
     ("a\nint main()\x7b\nx\n\x7d\nb").toList "b".toList (by decide)⟩

/-- C9: the two copies of the main-removal routine,
`KleeWrapper._remove_main_function` and `CTestRunner._remove_main_function`,
are extensionally equal: they return the same text on every input. -/
theorem C9_remove_main_copies_extensionally_equal (source_code : List Char) :
    kleeRemoveMainFunction source_code = runnerRemoveMainFunction source_code := by
  unfold kleeRemoveMainFunction runnerRemoveMainFunction
  rw [kleeFilterMain_eq_runnerFilterMain]

/-! ## Python values and floats (output_validator.py)

Parsed harness outputs are Python `int`, `float`, `str`, `bool` values.
Floats are modelled as exact rationals extended with NaN and the two
signed infinities; finite arithmetic is exact. -/

inductive PyFloat : Type
  | finite (q : ℚ)
  | nan
  | inf (pos : Bool)
deriving DecidableEq, Repr

namespace PyFloat

/-- IEEE `<` : NaN compares false with everything. -/
def lt : PyFloat → PyFloat → Bool
  | finite p, finite q => p < q
  | finite _, inf s => s
  | inf s, finite _ => !s
  | inf s, inf t => !s && t
  | _, _ => false

/-- IEEE `<=`. -/
def le : PyFloat → PyFloat → Bool
  | finite p, finite q => p ≤ q
  | finite _, inf s => s
  | inf s, finite _ => !s
  | inf s, inf t => (s == t) || (!s && t)
  | _, _ => false

def sub : PyFloat → PyFloat → PyFloat
  | finite p, finite q => finite (p - q)
  | finite _, inf s => inf (!s)
  | inf s, finite _ => inf s
  | inf s, inf t => if s = t then nan else inf s
  | _, _ => nan

def abs : PyFloat → PyFloat
  | finite p => finite |p|
  | nan => nan
  | inf _ => inf true

/-- Multiplication by a positive rational constant (the tolerance). -/
def mulPos : PyFloat → ℚ → PyFloat
  | finite p, q => finite (p * q)
  | nan, _ => nan
  | inf s, _ => inf s

def isNan : PyFloat → Bool
  | nan => true
  | _ => false

def isInf : PyFloat → Bool
  | inf _ => true
  | _ => false

/-- Python `max(a, b)`: returns `b` iff `b > a`. -/
def pymax (a b : PyFloat) : PyFloat :=
  if lt a b then b else a

end PyFloat

inductive PyVal : Type
  | vInt (n : ℤ)
  | vFloat (f : PyFloat)
  | vStr (s : List Char)
  | vBool (b : Bool)
  | vNone
deriving DecidableEq, Repr

namespace PyVal

/-- Python runtime type tag, for `type(x) != type(y)`. -/
def typeTag : PyVal → Nat
  | vInt _ => 0
  | vFloat _ => 1
  | vStr _ => 2
  | vBool _ => 3
  | vNone => 4

/-- `isinstance(x, (int, float))`; `bool` is a subclass of `int`. -/
def isNumeric : PyVal → Bool
  | vInt _ => true
  | vFloat _ => true
  | vBool _ => true
  | _ => false

/-- `isinstance(x, float)`. -/
def isFloat : PyVal → Bool
  | vFloat _ => true
  | _ => false

/-- Python `float(x)` on the values that can appear here; `none` models a
raised `ValueError`/`TypeError`. -/
def toFloat : PyVal → Option PyFloat
  | vInt n => some (PyFloat.finite (n : ℚ))
  | vFloat f => some f
  | vBool b => some (PyFloat.finite (if b then 1 else 0))
  | _ => none

/-- Python `==` on the value pairs reachable through the exact-comparison
path of `_compare_values` (`bool` compares with `int` numerically). -/
def pyEq : PyVal → PyVal → Bool
  | vInt a, vInt b => a = b
  | vStr a, vStr b => a = b
  | vBool a, vBool b => a = b
  | vBool a, vInt b => ((if a then (1 : ℤ) else 0) = b)
  | vInt a, vBool b => (a = (if b then (1 : ℤ) else 0))
  | vNone, vNone => true
  | vFloat a, vFloat b => PyFloat.le a b && PyFloat.le b a
  | _, _ => false

end PyVal

/-! ## OutputValidator (output_validator.py) -/

/-- Python dict lookup `d.get(k)`, dicts as insertion-ordered association
lists with unique keys. -/
def dictGet {V : Type} (d : List (List Char × V)) (k : List Char) : Option V :=
  (d.find? (fun p => p.1 = k)).map (·.2)

/-- `OutputDifference` (test_case.py).  The human-readable `description`
strings carry no formatted numbers in this model. -/
structure OutputDifference where
  variable_name : List Char
  c_value : PyVal
  csharp_value : PyVal
  description : List Char
  tolerance : Option PyFloat := none
  is_critical : Bool := true
deriving DecidableEq, Repr

/-- The slice of `TestResult` consumed by the validator. -/
structure TRes where
  outputs : List (List Char × PyVal)
deriving DecidableEq, Repr

/-- `ValidationResult` (test_case.py), statistics fields only. -/
structure ValidationResult where
  test_case_id : List Char
  is_match : Bool := false
  differences : List OutputDifference := []
  total_outputs : Nat := 0
  matching_outputs : Nat := 0
  different_outputs : Nat := 0
deriving DecidableEq, Repr, Inhabited

/-- `OutputValidator._compare_floats` with `float_tolerance = 1e-6`
(output_validator.py lines 222-294). -/
def compareFloats (key : List Char) (c_value csharp_value : PyVal) :
    Bool × Option OutputDifference :=
  match c_value.toFloat, csharp_value.toFloat with
  | some c_val, some cs_val =>
    if c_val.isNan && cs_val.isNan then (true, none)
    else if c_val.isInf && cs_val.isInf &&
        (PyFloat.lt (PyFloat.finite 0) c_val == PyFloat.lt (PyFloat.finite 0) cs_val) then
      (true, none)
    else
      let diff := PyFloat.abs (PyFloat.sub c_val cs_val)
      let max_val := PyFloat.pymax (PyFloat.abs c_val) (PyFloat.abs cs_val)
      let tolerance :=
        if PyFloat.lt (PyFloat.finite 1) max_val then max_val.mulPos (1 / 1000000)
        else PyFloat.finite (1 / 1000000)
      if PyFloat.le diff tolerance then
        if PyFloat.lt (PyFloat.finite 0) diff then
          (true, some { variable_name := key, c_value := PyVal.vFloat c_val,
                        csharp_value := PyVal.vFloat cs_val,
                        description := "Float difference within tolerance".toList,
                        tolerance := some tolerance, is_critical := false })
        else (true, none)
      else
        (false, some { variable_name := key, c_value := PyVal.vFloat c_val,
                       csharp_value := PyVal.vFloat cs_val,
                       description := "Float difference exceeds tolerance".toList,
                       tolerance := some tolerance, is_critical := true })
  | _, _ =>
    (false, some { variable_name := key, c_value := c_value,
                   csharp_value := csharp_value,
                   description := "Cannot convert to float".toList,
                   is_critical := true })

/-- `OutputValidator._compare_values` (output_validator.py lines 164-220). -/
def compareValues (key : List Char) (c_value csharp_value : PyVal) :
    Bool × Option OutputDifference :=
  if c_value.typeTag ≠ csharp_value.typeTag &&
      !(c_value.isNumeric && csharp_value.isNumeric) then
    (false, some { variable_name := key, c_value := c_value,
                   csharp_value := csharp_value,
                   description := "Type mismatch".toList, is_critical := true })
  else if c_value.isFloat || csharp_value.isFloat then
    compareFloats key c_value csharp_value
  else if c_value.pyEq csharp_value then (true, none)
  else
    (false, some { variable_name := key, c_value := c_value,
                   csharp_value := csharp_value,
                   description := "Values do not match".toList,
                   is_critical := true })

/-- The per-key comparison loop of `validate` (output_validator.py lines
103-142), returning `(matching, different, differences)`. -/
def compareKeys (c_outputs csharp_outputs : List (List Char × PyVal)) :
    List (List Char) → Nat × Nat × List OutputDifference
  | [] => (0, 0, [])
  | key :: keys =>
    let rest := compareKeys c_outputs csharp_outputs keys
    match dictGet c_outputs key, dictGet csharp_outputs key with
    | none, _ =>
      (rest.1, rest.2.1 + 1,
        { variable_name := key, c_value := PyVal.vStr "<missing>".toList,
          csharp_value := (dictGet csharp_outputs key).getD PyVal.vNone,
          description := "Output missing in C".toList,
          is_critical := true } :: rest.2.2)
    | some c_value, none =>
      (rest.1, rest.2.1 + 1,
        { variable_name := key, c_value := c_value,
          csharp_value := PyVal.vStr "<missing>".toList,
          description := "Output missing in C#".toList,
          is_critical := true } :: rest.2.2)
    | some c_value, some csharp_value =>
      match compareValues key c_value csharp_value with
      | (true, _) => (rest.1 + 1, rest.2.1, rest.2.2)
      | (false, some d) => (rest.1, rest.2.1 + 1, d :: rest.2.2)
      | (false, none) => (rest.1, rest.2.1 + 1, rest.2.2)

/-- `OutputValidator.validate` (output_validator.py lines 43-162).  A test
suite is its list of test-case ids; result dicts map ids to recorded
outputs.  `all_keys` is the union of the two output key sets. -/
def validate (test_suite : List (List Char))
    (c_results csharp_results : List (List Char × TRes)) :
    List ValidationResult :=
  test_suite.map (fun test_id =>
    match dictGet c_results test_id, dictGet csharp_results test_id with
    | some c_result, some csharp_result =>
      let all_keys :=
        (c_result.outputs.map Prod.fst ++
          csharp_result.outputs.map Prod.fst).dedup
      let stats := compareKeys c_result.outputs csharp_result.outputs all_keys
      { test_case_id := test_id,
        total_outputs := all_keys.length,
        matching_outputs := stats.1,
        different_outputs := stats.2.1,
        differences := stats.2.2,
        is_match := decide (stats.2.1 = 0) && decide (0 < all_keys.length) }
    | c_result?, csharp_result? =>
      { test_case_id := test_id,
        is_match := false,
        differences :=
          [{ variable_name := "test_execution".toList,
             c_value := PyVal.vStr
               (if c_result?.isNone then "missing".toList else "present".toList),
             csharp_value := PyVal.vStr
               (if csharp_result?.isNone then "missing".toList else "present".toList),
             description := "Test did not execute on both platforms".toList,
             is_critical := true }] })

/-- Each key of the comparison loop counts once, as matching or as
different. -/
theorem compareKeys_sum (c_outputs csharp_outputs : List (List Char × PyVal))
    (keys : List (List Char)) :
    (compareKeys c_outputs csharp_outputs keys).1 +
      (compareKeys c_outputs csharp_outputs keys).2.1 = keys.length := by
  induction keys with
  | nil => rfl
  | cons key keys ih =>
    simp only [compareKeys]
    cases h1 : dictGet c_outputs key with
    | none => simpa using by omega
    | some c_value =>
      cases h2 : dictGet csharp_outputs key with
      | none => simpa using by omega
      | some csharp_value =>
        rcases h3 : compareValues key c_value csharp_value with ⟨b, d?⟩
        dsimp only
        rw [h3]
        cases b with
        | true => simpa using by omega
        | false => cases d? <;> simpa using by omega

/-- C2: every `ValidationResult` produced by `OutputValidator.validate`
satisfies `matching_outputs + different_outputs = total_outputs` and
`is_match ↔ (total_outputs > 0 ∧ different_outputs = 0)`, including the
results for test cases whose C or C# result is missing (there all three
counters are 0 and `is_match` is false). -/
theorem C2_validation_counts (test_suite : List (List Char))
    (c_results csharp_results : List (List Char × TRes))
    (v : ValidationResult)
    (hv : v ∈ validate test_suite c_results csharp_results) :
    v.matching_outputs + v.different_outputs = v.total_outputs ∧
    (v.is_match = true ↔ (0 < v.total_outputs ∧ v.different_outputs = 0)) := by
  unfold validate at hv
  rw [List.mem_map] at hv
  obtain ⟨test_id, _, rfl⟩ := hv
  cases h1 : dictGet c_results test_id with
  | none =>
    simp only [h1]
    constructor
    · simp
    · simp
  | some c_result =>
    cases h2 : dictGet csharp_results test_id with
    | none =>
      simp only [h1, h2]
      constructor
      · simp
      · simp
    | some csharp_result =>
      simp only [h1, h2]
      constructor
      · exact compareKeys_sum _ _ _
      · constructor
        · intro h
          rw [Bool.and_eq_true, decide_eq_true_eq, decide_eq_true_eq] at h
          exact ⟨h.2, h.1⟩
        · intro h
          rw [Bool.and_eq_true, decide_eq_true_eq, decide_eq_true_eq]
          exact ⟨h.2, h.1⟩

/-- Witness for C2 on a suite with one test missing from both result
dicts. -/
theorem C2_witness :
    ((validate ["t".toList] [] []).headI.matching_outputs +
      (validate ["t".toList] [] []).headI.different_outputs =
      (validate ["t".toList] [] []).headI.total_outputs) ∧
    ((validate ["t".toList] [] []).headI.is_match = true ↔
      (0 < (validate ["t".toList] [] []).headI.total_outputs ∧
        (validate ["t".toList] [] []).headI.different_outputs = 0)) :=
  C2_validation_counts ["t".toList] [] []
    (validate ["t".toList] [] []).headI (by decide)

/-- The effective float tolerance of `_compare_floats` on finite values:
`1e-6`, scaled by `max(|a|,|b|)` when that exceeds 1. -/
def floatTolScaled (q1 q2 : ℚ) : ℚ :=
  if 1 < max |q1| |q2| then max |q1| |q2| * (1 / 1000000) else 1 / 1000000

theorem pymax_finite (p q : ℚ) :
    PyFloat.pymax (PyFloat.finite p) (PyFloat.finite q) =
      PyFloat.finite (max p q) := by
  unfold PyFloat.pymax PyFloat.lt
  rcases lt_or_ge p q with h | h
  · rw [if_pos (by simpa using h), max_eq_right h.le]
  · rw [if_neg (by simpa using not_lt.mpr h), max_eq_left h]

/-- On finite floats whose difference is non-zero but within tolerance,
`_compare_floats` reports a match together with a non-critical
`OutputDifference`. -/
theorem compareFloats_within (k : List Char) (q1 q2 : ℚ)
    (hne : q1 - q2 ≠ 0) (htol : |q1 - q2| ≤ floatTolScaled q1 q2) :
    compareFloats k (PyVal.vFloat (PyFloat.finite q1))
        (PyVal.vFloat (PyFloat.finite q2)) =
      (true, some
        { variable_name := k,
          c_value := PyVal.vFloat (PyFloat.finite q1),
          csharp_value := PyVal.vFloat (PyFloat.finite q2),
          description := "Float difference within tolerance".toList,
          tolerance := some (PyFloat.finite (floatTolScaled q1 q2)),
          is_critical := false }) := by
  unfold compareFloats
  simp only [PyVal.toFloat, PyFloat.isNan, PyFloat.isInf, Bool.false_and,
    Bool.and_false, Bool.false_eq_true, if_false, if_neg]
  have hsub : PyFloat.sub (PyFloat.finite q1) (PyFloat.finite q2) =
      PyFloat.finite (q1 - q2) := rfl
  have habs1 : PyFloat.abs (PyFloat.finite (q1 - q2)) =
      PyFloat.finite |q1 - q2| := rfl
  have habs2 : PyFloat.abs (PyFloat.finite q1) = PyFloat.finite |q1| := rfl
  have habs3 : PyFloat.abs (PyFloat.finite q2) = PyFloat.finite |q2| := rfl
  rw [hsub, habs1, habs2, habs3, pymax_finite]
  have htolval :
      (if PyFloat.lt (PyFloat.finite 1) (PyFloat.finite (max |q1| |q2|)) then
        (PyFloat.finite (max |q1| |q2|)).mulPos (1 / 1000000)
      else PyFloat.finite (1 / 1000000)) =
      PyFloat.finite (floatTolScaled q1 q2) := by
    unfold floatTolScaled
    by_cases h : 1 < max |q1| |q2|
    · rw [if_pos (by simpa [PyFloat.lt] using h), if_pos h]
      rfl
    · rw [if_neg (by simpa [PyFloat.lt] using h), if_neg h]
  rw [htolval]
  have hle : PyFloat.le (PyFloat.finite |q1 - q2|)
      (PyFloat.finite (floatTolScaled q1 q2)) = true := by
    simpa [PyFloat.le] using htol
  have hlt : PyFloat.lt (PyFloat.finite 0) (PyFloat.finite |q1 - q2|) = true := by
    simpa [PyFloat.lt] using abs_pos.mpr hne
  rw [hle, hlt]
  simp

/-- Evaluation of `validate` on a one-test suite whose single output key
holds finite floats within tolerance: the test matches, and the
non-critical difference returned by `_compare_floats` is not appended to
the result's differences list (only mismatching keys append). -/
theorem validate_single_float (t k : List Char) (q1 q2 : ℚ)
    (hne : q1 - q2 ≠ 0) (htol : |q1 - q2| ≤ floatTolScaled q1 q2) :
    validate [t] [(t, ⟨[(k, PyVal.vFloat (PyFloat.finite q1))]⟩)]
        [(t, ⟨[(k, PyVal.vFloat (PyFloat.finite q2))]⟩)] =
      [{ test_case_id := t, is_match := true, differences := [],
         total_outputs := 1, matching_outputs := 1, different_outputs := 0 }] := by
  unfold validate
  have hget1 : dictGet [(t, (⟨[(k, PyVal.vFloat (PyFloat.finite q1))]⟩ : TRes))] t =
      some ⟨[(k, PyVal.vFloat (PyFloat.finite q1))]⟩ := by
    simp [dictGet, List.find?]
  have hget2 : dictGet [(t, (⟨[(k, PyVal.vFloat (PyFloat.finite q2))]⟩ : TRes))] t =
      some ⟨[(k, PyVal.vFloat (PyFloat.finite q2))]⟩ := by
    simp [dictGet, List.find?]
  simp only [List.map_cons, List.map_nil]
  rw [hget1, hget2]
  dsimp only
  have hcmp : compareKeys [(k, PyVal.vFloat (PyFloat.finite q1))]
      [(k, PyVal.vFloat (PyFloat.finite q2))] [k] = (1, 0, []) := by
    unfold compareKeys
    have hg1 : dictGet [(k, PyVal.vFloat (PyFloat.finite q1))] k =
        some (PyVal.vFloat (PyFloat.finite q1)) := by
      simp [dictGet, List.find?]
    have hg2 : dictGet [(k, PyVal.vFloat (PyFloat.finite q2))] k =
        some (PyVal.vFloat (PyFloat.finite q2)) := by
      simp [dictGet, List.find?]
    rw [hg1, hg2]
    have hcv : compareValues k (PyVal.vFloat (PyFloat.finite q1))
        (PyVal.vFloat (PyFloat.finite q2)) = (true, some
          { variable_name := k,
            c_value := PyVal.vFloat (PyFloat.finite q1),
            csharp_value := PyVal.vFloat (PyFloat.finite q2),
            description := "Float difference within tolerance".toList,
            tolerance := some (PyFloat.finite (floatTolScaled q1 q2)),
            is_critical := false }) := by
      unfold compareValues
      rw [if_neg (by simp [PyVal.typeTag, PyVal.isNumeric])]
      rw [if_pos (by simp [PyVal.isFloat])]
      exact compareFloats_within k q1 q2 hne htol
    dsimp only
    rw [hcv]
    rfl
  have hdd : (List.map Prod.fst [(k, PyVal.vFloat (PyFloat.finite q1))] ++
      List.map Prod.fst [(k, PyVal.vFloat (PyFloat.finite q2))]).dedup = [k] := by
    simp
  simp only [hdd, hcmp]
  rfl

/-- C4 (amended): on float outputs whose absolute difference is non-zero
but within tolerance, `_compare_floats` returns a match together with a
non-critical `OutputDifference`, and `validate` marks the test as a match;
the non-critical difference is however discarded by `validate` (only
mismatching keys append to `differences`), so the validation result's
differences list stays empty. -/
theorem C4_float_tolerance (t k : List Char) (q1 q2 : ℚ)
    (hne : q1 - q2 ≠ 0) (htol : |q1 - q2| ≤ floatTolScaled q1 q2) :
    (∃ d : OutputDifference,
      compareFloats k (PyVal.vFloat (PyFloat.finite q1))
          (PyVal.vFloat (PyFloat.finite q2)) = (true, some d) ∧
      d.is_critical = false) ∧
    validate [t] [(t, ⟨[(k, PyVal.vFloat (PyFloat.finite q1))]⟩)]
        [(t, ⟨[(k, PyVal.vFloat (PyFloat.finite q2))]⟩)] =
      [{ test_case_id := t, is_match := true, differences := [],
         total_outputs := 1, matching_outputs := 1, different_outputs := 0 }] :=
  ⟨⟨_, compareFloats_within k q1 q2 hne htol, rfl⟩,
   validate_single_float t k q1 q2 hne htol⟩

/-- Counterexample for C4 as stated: for C value `0.30000000000000004`
versus C# value `0.3` the test is a match, but no `OutputDifference` is
recorded in the validation result's differences list — it is empty. -/
theorem C4_counterexample :
    validate ["t".toList]
        [("t".toList, ⟨[("r".toList,
          PyVal.vFloat (PyFloat.finite (30000000000000004 / 100000000000000000)))]⟩)]
        [("t".toList, ⟨[("r".toList,
          PyVal.vFloat (PyFloat.finite (3 / 10)))]⟩)] =
      [{ test_case_id := "t".toList, is_match := true, differences := [],
         total_outputs := 1, matching_outputs := 1, different_outputs := 0 }] :=
  validate_single_float "t".toList "r".toList
    (30000000000000004 / 100000000000000000) (3 / 10)
    (by norm_num) (by norm_num [floatTolScaled, abs_of_nonneg])

/-- Witness for C4 (amended) at the spec's literal scenario values. -/
theorem C4_witness :
    (∃ d : OutputDifference,
      compareFloats "r".toList
          (PyVal.vFloat (PyFloat.finite (30000000000000004 / 100000000000000000)))
          (PyVal.vFloat (PyFloat.finite (3 / 10))) = (true, some d) ∧
      d.is_critical = false) ∧
    validate ["t".toList]
        [("t".toList, ⟨[("r".toList,
          PyVal.vFloat (PyFloat.finite (30000000000000004 / 100000000000000000)))]⟩)]
        [("t".toList, ⟨[("r".toList,
          PyVal.vFloat (PyFloat.finite (3 / 10)))]⟩)] =
      [{ test_case_id := "t".toList, is_match := true, differences := [],
         total_outputs := 1, matching_outputs := 1, different_outputs := 0 }] :=
  C4_float_tolerance "t".toList "r".toList
    (30000000000000004 / 100000000000000000) (3 / 10)
    (by norm_num) (by norm_num [floatTolScaled, abs_of_nonneg])

/-! ## CTestRunner._parse_test_output (c_test_runner.py lines 207-272) -/

/-- Python dict assignment `d[k] = v`: replace in place, else append. -/
def pyDictSet {V : Type} (d : List (List Char × V)) (k : List Char) (v : V) :
    List (List Char × V) :=
  if d.any (fun p => p.1 = k) then
    d.map (fun p => if p.1 = k then (k, v) else p)
  else d ++ [(k, v)]

theorem find_replace_self {V : Type} (d : List (List Char × V))
    (k : List Char) (v : V) (h : d.any (fun p => p.1 = k) = true) :
    List.find? (fun p => decide (p.1 = k))
      (d.map (fun p => if p.1 = k then (k, v) else p)) = some (k, v) := by
  induction d with
  | nil => simp at h
  | cons q qs ih =>
    by_cases hqk : q.1 = k
    · rw [List.map_cons, if_pos hqk, List.find?_cons_of_pos _ (by simp)]
    · rw [List.map_cons, if_neg hqk,
        List.find?_cons_of_neg _ (by simpa using hqk)]
      apply ih
      simp only [List.any_cons, Bool.or_eq_true] at h
      rcases h with h | h
      · exact absurd (by simpa using h) hqk
      · exact h

theorem find_append_last {V : Type} (d : List (List Char × V))
    (k : List Char) (v : V) (h : d.any (fun p => p.1 = k) = false) :
    List.find? (fun p => decide (p.1 = k)) (d ++ [(k, v)]) = some (k, v) := by
  induction d with
  | nil => simp [List.find?]
  | cons q qs ih =>
    simp only [List.any_cons, Bool.or_eq_false_iff] at h
    rw [List.cons_append,
      List.find?_cons_of_neg _ (by simpa using h.1)]
    exact ih h.2

theorem dictGet_pyDictSet_self {V : Type} (d : List (List Char × V))
    (k : List Char) (v : V) : dictGet (pyDictSet d k v) k = some v := by
  unfold pyDictSet dictGet
  by_cases h : d.any (fun p => p.1 = k)
  · rw [if_pos h, find_replace_self d k v h]
    rfl
  · rw [if_neg h, find_append_last d k v (eq_false_of_ne_true h)]
    rfl

theorem find_replace_ne {V : Type} (d : List (List Char × V))
    (k k' : List Char) (v : V) (h : k' ≠ k) :
    List.find? (fun p => decide (p.1 = k'))
      (d.map (fun p => if p.1 = k then (k, v) else p)) =
    List.find? (fun p => decide (p.1 = k')) d := by
  induction d with
  | nil => rfl
  | cons q qs ih =>
    by_cases hqk : q.1 = k
    · rw [List.map_cons, if_pos hqk,
        List.find?_cons_of_neg _ (by simpa using Ne.symm h),
        List.find?_cons_of_neg _ (by
          simp only [decide_eq_true_eq]
          rw [hqk]
          exact Ne.symm h), ih]
    · rw [List.map_cons, if_neg hqk]
      by_cases hq' : q.1 = k'
      · rw [List.find?_cons_of_pos _ (by simpa using hq'),
          List.find?_cons_of_pos _ (by simpa using hq')]
      · rw [List.find?_cons_of_neg _ (by simpa using hq'),
          List.find?_cons_of_neg _ (by simpa using hq'), ih]

theorem find_append_ne {V : Type} (d : List (List Char × V))
    (k k' : List Char) (v : V) (h : k' ≠ k) :
    List.find? (fun p => decide (p.1 = k')) (d ++ [(k, v)]) =
    List.find? (fun p => decide (p.1 = k')) d := by
  induction d with
  | nil =>
    rw [List.nil_append,
      List.find?_cons_of_neg _ (by simpa using Ne.symm h)]
  | cons q qs ih =>
    rw [List.cons_append]
    by_cases hq' : q.1 = k'
    · rw [List.find?_cons_of_pos _ (by simpa using hq'),
        List.find?_cons_of_pos _ (by simpa using hq')]
    · rw [List.find?_cons_of_neg _ (by simpa using hq'),
        List.find?_cons_of_neg _ (by simpa using hq'), ih]

theorem dictGet_pyDictSet_ne {V : Type} (d : List (List Char × V))
    (k k' : List Char) (v : V) (h : k' ≠ k) :
    dictGet (pyDictSet d k v) k' = dictGet d k' := by
  unfold pyDictSet dictGet
  by_cases hk : d.any (fun p => p.1 = k)
  · rw [if_pos hk, find_replace_ne d k k' v h]
  · rw [if_neg hk, find_append_ne d k k' v h]

/-- Python `str.strip()` (whitespace both ends). -/
def pyStrip (s : List Char) : List Char :=
  ((s.dropWhile pyIsSpace).reverse.dropWhile pyIsSpace).reverse

/-- Decimal digits to a natural number. -/
def digitsToNat (l : List Char) : Nat :=
  l.foldl (fun a c => a * 10 + (c.toNat - Char.toNat '0')) 0

/-- Python `int(s)` on a stripped string: optional sign then digits. -/
def pyParseInt (s : List Char) : Option Int :=
  match s with
  | '+' :: r =>
    if r ≠ [] ∧ r.all Char.isDigit then some (digitsToNat r : Int) else none
  | '-' :: r =>
    if r ≠ [] ∧ r.all Char.isDigit then some (-(digitsToNat r : Int)) else none
  | r =>
    if r ≠ [] ∧ r.all Char.isDigit then some (digitsToNat r : Int) else none

/-- Exponent suffix of a float literal: empty, or `e`/`E`, optional sign,
digits. -/
def pyParseExp (r : List Char) (m : ℚ) : Option ℚ :=
  match r with
  | [] => some m
  | e :: r1 =>
    if e = 'e' ∨ e = 'E' then
      let (sgn, r2) : ℚ × List Char :=
        match r1 with
        | '+' :: r2 => (1, r2)
        | '-' :: r2 => (-1, r2)
        | r2 => (1, r2)
      if r2 ≠ [] ∧ r2.all Char.isDigit then
        some (m * (10 : ℚ) ^ (sgn.num * (digitsToNat r2 : Int)))
      else none
    else none

/-- Python `float(s)` on a stripped decimal literal:
`[sign] digits [. digits] [exponent]` with at least one mantissa digit. -/
def pyParseFloat (s : List Char) : Option ℚ :=
  let (sgn, s1) : ℚ × List Char :=
    match s with
    | '+' :: r => (1, r)
    | '-' :: r => (-1, r)
    | r => (1, r)
  let ip := s1.takeWhile Char.isDigit
  let r1 := s1.dropWhile Char.isDigit
  match r1 with
  | '.' :: r2 =>
    let fp := r2.takeWhile Char.isDigit
    let r3 := r2.dropWhile Char.isDigit
    if ip = [] ∧ fp = [] then none
    else
      (pyParseExp r3 ((digitsToNat ip : ℚ) +
        (digitsToNat fp : ℚ) / (10 : ℚ) ^ fp.length)).map (sgn * ·)
  | _ =>
    if ip = [] then none
    else (pyParseExp r1 (digitsToNat ip : ℚ)).map (sgn * ·)

/-- The right-hand-side conversion of the output protocol: `.` present →
`float`, else `int`; a `ValueError` keeps the raw string. -/
def parseOutputValue (value_str : List Char) : PyVal :=
  if '.' ∈ value_str then
    match pyParseFloat value_str with
    | some q => PyVal.vFloat (PyFloat.finite q)
    | none => PyVal.vStr value_str
  else
    match pyParseInt value_str with
    | some n => PyVal.vInt n
    | none => PyVal.vStr value_str

/-- Python `sep` split (`str.split(sep)` with a non-empty separator):
leftmost non-overlapping occurrences, keeping empty parts.  Structural
recursion on a fuel that dominates the string length. -/
def pySplitSepAux (sep : List Char) : Nat → List Char → List (List Char)
  | _, [] => [[]]
  | 0, s => [s]
  | fuel + 1, c :: r =>
    if sep ≠ [] ∧ sep.isPrefixOf (c :: r) then
      [] :: pySplitSepAux sep fuel ((c :: r).drop sep.length)
    else
      match pySplitSepAux sep fuel r with
      | l :: ls => (c :: l) :: ls
      | [] => [[c]]

def pySplitSep (sep s : List Char) : List (List Char) :=
  pySplitSepAux sep s.length s

/-- `TestStatus` (test_case.py). -/
inductive TestStatus : Type
  | pending | running | passed | failed | skipped | error
deriving DecidableEq, Repr

/-- The slice of `TestCase` consumed by `_parse_test_output`. -/
structure RunnerTestCase where
  id : List Char
  name : List Char
deriving DecidableEq, Repr

/-- The slice of `TestResult` written by `_parse_test_output`; timestamps
and durations are not modelled. -/
structure RunnerTestResult where
  test_case_id : List Char
  status : TestStatus := TestStatus.pending
  success : Bool := false
  error_message : Option (List Char) := none
  outputs : List (List Char × PyVal) := []
  standard_output : List Char := []
  standard_error : List Char := []
  exit_code : Option Int := none
deriving DecidableEq, Repr

/-- `TestResult.mark_success` (test_case.py lines 75-80). -/
def RunnerTestResult.markSuccess (r : RunnerTestResult)
    (outputs : List (List Char × PyVal)) : RunnerTestResult :=
  { r with status := TestStatus.passed, success := true, outputs := outputs }

/-- `TestResult.mark_failure` (test_case.py lines 82-89): an empty outputs
dict is falsy, so it does not overwrite the field. -/
def RunnerTestResult.markFailure (r : RunnerTestResult)
    (error : List Char) (outputs : List (List Char × PyVal)) : RunnerTestResult :=
  let r' := { r with status := TestStatus.failed, success := false,
                     error_message := some error }
  if outputs ≠ [] then { r' with outputs := outputs } else r'

/-- Python substring containment `sub in s`. -/
def listContainsSub (sub : List Char) : List Char → Bool
  | [] => sub.isEmpty
  | c :: r => sub.isPrefixOf (c :: r) || listContainsSub sub r

/-- The `Test <name>:` label searched for in each stdout line. -/
def testPattern (name : List Char) : List Char :=
  "Test ".toList ++ name ++ ":".toList

/-- The per-test stdout scan of `_parse_test_output` (c_test_runner.py
lines 245-263), accumulating the `outputs` dict. -/
def collectOutputs (name : List Char) (stdout : List Char) :
    List (List Char × PyVal) :=
  (splitLines stdout).foldl (fun outputs line =>
    if listContainsSub (testPattern name) line then
      if listContainsSub "result =".toList line then
        match pySplitSep "result =".toList line with
        | _ :: p1 :: _ =>
          pyDictSet outputs "return_value".toList (parseOutputValue (pyStrip p1))
        | _ => outputs
      else if listContainsSub "completed".toList line then
        pyDictSet outputs "completed".toList (PyVal.vBool true)
      else outputs
    else outputs) []

/-- The `TestResult` built for one test case by `_parse_test_output`. -/
def mkParsedResult (tc : RunnerTestCase) (stdout stderr : List Char)
    (exit_code : Int) : RunnerTestResult :=
  let base : RunnerTestResult :=
    { test_case_id := tc.id, standard_output := stdout,
      standard_error := stderr, exit_code := some exit_code }
  let outputs := collectOutputs tc.name stdout
  if outputs ≠ [] ∨ exit_code = 0 then base.markSuccess outputs
  else base.markFailure "No output found or non-zero exit code".toList outputs

/-- `CTestRunner._parse_test_output`: one result per test case, keyed by
test-case id in the results dict. -/
def parseTestOutput (test_suite : List RunnerTestCase)
    (stdout stderr : List Char) (exit_code : Int) :
    List (List Char × RunnerTestResult) :=
  test_suite.foldl
    (fun results tc =>
      pyDictSet results tc.id (mkParsedResult tc stdout stderr exit_code)) []

/-- Folding dict assignments over test cases with fresh ids does not
disturb existing keys. -/
theorem parseTestOutput_foldl_frozen (stdout stderr : List Char)
    (exit_code : Int) (suite : List RunnerTestCase)
    (acc : List (List Char × RunnerTestResult)) (k : List Char)
    (hk : ∀ tc ∈ suite, tc.id ≠ k) :
    dictGet (suite.foldl
      (fun results tc =>
        pyDictSet results tc.id (mkParsedResult tc stdout stderr exit_code)) acc) k =
    dictGet acc k := by
  induction suite generalizing acc with
  | nil => rfl
  | cons tc rest ih =>
    rw [List.foldl_cons, ih _ (fun t ht => hk t (List.mem_cons_of_mem _ ht)),
      dictGet_pyDictSet_ne]
    exact fun hkk => hk tc (List.mem_cons_self _ _) hkk.symm

/-- With distinct test-case ids, the results dict maps each test case's id
to the result computed for it. -/
theorem parseTestOutput_lookup (stdout stderr : List Char) (exit_code : Int)
    (suite : List RunnerTestCase)
    (hids : (suite.map RunnerTestCase.id).Nodup) (tc : RunnerTestCase)
    (htc : tc ∈ suite) :
    dictGet (parseTestOutput suite stdout stderr exit_code) tc.id =
      some (mkParsedResult tc stdout stderr exit_code) := by
  unfold parseTestOutput
  suffices h : ∀ acc : List (List Char × RunnerTestResult),
      dictGet (suite.foldl
        (fun results t =>
          pyDictSet results t.id (mkParsedResult t stdout stderr exit_code)) acc) tc.id =
      some (mkParsedResult tc stdout stderr exit_code) from h []
  induction suite with
  | nil => exact absurd htc (by simp)
  | cons hd rest ih =>
    intro acc
    rw [List.foldl_cons]
    rcases List.mem_cons.mp htc with rfl | htc'
    · rw [List.map_cons, List.nodup_cons] at hids
      rw [parseTestOutput_foldl_frozen stdout stderr exit_code rest _ tc.id ?fresh,
        dictGet_pyDictSet_self]
      case fresh =>
        intro t ht heq
        exact hids.1 (heq ▸ List.mem_map_of_mem RunnerTestCase.id ht)
    · rw [List.map_cons, List.nodup_cons] at hids
      exact ih hids.2 htc' _

/-- If no stdout line contains the test's label, the collected outputs
dict is empty. -/
theorem collectOutputs_of_no_label (name : List Char) (stdout : List Char)
    (h : ∀ line ∈ splitLines stdout,
      listContainsSub (testPattern name) line = false) :
    collectOutputs name stdout = [] := by
  unfold collectOutputs
  suffices hgen : ∀ (L : List (List Char)),
      (∀ line ∈ L, listContainsSub (testPattern name) line = false) →
      ∀ acc : List (List Char × PyVal),
        L.foldl (fun outputs line =>
          if listContainsSub (testPattern name) line then
            if listContainsSub "result =".toList line then
              match pySplitSep "result =".toList line with
              | _ :: p1 :: _ =>
                pyDictSet outputs "return_value".toList
                  (parseOutputValue (pyStrip p1))
              | _ => outputs
            else if listContainsSub "completed".toList line then
              pyDictSet outputs "completed".toList (PyVal.vBool true)
            else outputs
          else outputs) acc = acc from
    hgen (splitLines stdout) h []
  intro L
  induction L with
  | nil => intro _ acc; rfl
  | cons line rest ih =>
    intro hL acc
    rw [List.foldl_cons, if_neg (by
      rw [hL line (List.mem_cons_self _ _)]
      simp)]
    exact ih (fun l hl => hL l (List.mem_cons_of_mem _ hl)) acc

/-- C10: when the C harness exits with code 0, `_parse_test_output` marks
every test case passed (`mark_success`), including tests with no
`Test <name>:` line in stdout, whose outputs map is then empty; and a test
is marked failed exactly when its outputs map is empty and the exit code
is non-zero. -/
theorem C10_parse_all_passed_on_exit_zero (suite : List RunnerTestCase)
    (stdout stderr : List Char) (exit_code : Int)
    (hids : (suite.map RunnerTestCase.id).Nodup) :
    ∀ tc ∈ suite, ∃ r : RunnerTestResult,
      dictGet (parseTestOutput suite stdout stderr exit_code) tc.id = some r ∧
      (exit_code = 0 → r.status = TestStatus.passed ∧ r.success = true) ∧
      ((∀ line ∈ splitLines stdout,
          listContainsSub (testPattern tc.name) line = false) → r.outputs = []) ∧
      (r.status = TestStatus.failed ↔ (r.outputs = [] ∧ exit_code ≠ 0)) := by
  intro tc htc
  refine ⟨mkParsedResult tc stdout stderr exit_code,
    parseTestOutput_lookup stdout stderr exit_code suite hids tc htc, ?_, ?_, ?_⟩
  · intro hec
    unfold mkParsedResult
    rw [if_pos (Or.inr hec)]
    exact ⟨rfl, rfl⟩
  · intro hno
    have hout : collectOutputs tc.name stdout = [] :=
      collectOutputs_of_no_label tc.name stdout hno
    unfold mkParsedResult
    by_cases hcond : collectOutputs tc.name stdout ≠ [] ∨ exit_code = 0
    · rw [if_pos hcond]
      simpa [RunnerTestResult.markSuccess] using hout
    · rw [if_neg hcond]
      rw [RunnerTestResult.markFailure, if_neg (by simpa using hout)]
  · unfold mkParsedResult
    by_cases hcond : collectOutputs tc.name stdout ≠ [] ∨ exit_code = 0
    · rw [if_pos hcond]
      constructor
      · intro hst
        exact absurd hst (by simp [RunnerTestResult.markSuccess])
      · intro hfail
        have hout : collectOutputs tc.name stdout = [] := by
          simpa [RunnerTestResult.markSuccess] using hfail.1
        rcases hcond with hc | hc
        · exact absurd hout hc
        · exact absurd hc hfail.2
    · rw [if_neg hcond]
      push_neg at hcond
      rw [RunnerTestResult.markFailure, if_neg (by simpa using hcond.1)]
      constructor
      · intro _
        exact ⟨rfl, hcond.2⟩
      · intro _
        rfl

/-- Witness for C10: one test, no matching stdout line, exit code 0. -/
theorem C10_witness :
    ∃ r : RunnerTestResult,
      dictGet (parseTestOutput [⟨"id1".toList, "t1".toList⟩]
        "hello\nworld".toList "".toList 0) "id1".toList = some r ∧
      ((0 : Int) = 0 → r.status = TestStatus.passed ∧ r.success = true) ∧
      ((∀ line ∈ splitLines "hello\nworld".toList,
          listContainsSub (testPattern "t1".toList) line = false) → r.outputs = []) ∧
      (r.status = TestStatus.failed ↔ (r.outputs = [] ∧ (0 : Int) ≠ 0)) :=
  C10_parse_all_passed_on_exit_zero [⟨"id1".toList, "t1".toList⟩]
    "hello\nworld".toList "".toList 0 (by decide)
    ⟨"id1".toList, "t1".toList⟩ (by decide)

/-! ## InputGenerator (input_generator.py) -/

/-- The slice of `CVariable` consumed by the input generator. -/
structure CVariable where
  name : List Char
  data_type : List Char
  is_pointer : Bool := false
deriving DecidableEq, Repr

/-- The slice of `CFunction` consumed by the input generator. -/
structure CFunction where
  name : List Char := []
  parameters : List CVariable := []
deriving DecidableEq, Repr

/-- Python `str.lower()` (ASCII). -/
def pyLower (s : List Char) : List Char :=
  s.map Char.toLower

/-- `InputGenerator.generate_boundary_values` (input_generator.py lines
24-81). -/
def generate_boundary_values (param : CVariable) : List PyVal :=
  let data_type := pyLower param.data_type
  if listContainsSub "int".toList data_type then
    if listContainsSub "unsigned".toList data_type then
      [0, 1, 100, 1000, 2 ^ 32 - 1].map PyVal.vInt
    else [-(2 ^ 31), -1000, -1, 0, 1, 1000, 2 ^ 31 - 1].map PyVal.vInt
  else if listContainsSub "short".toList data_type then
    if listContainsSub "unsigned".toList data_type then
      [0, 1, 100, 2 ^ 16 - 1].map PyVal.vInt
    else [-(2 ^ 15), -100, -1, 0, 1, 100, 2 ^ 15 - 1].map PyVal.vInt
  else if listContainsSub "long".toList data_type then
    if listContainsSub "unsigned".toList data_type then
      [0, 1, 1000, 2 ^ 64 - 1].map PyVal.vInt
    else [-(2 ^ 63), -1000, -1, 0, 1, 1000, 2 ^ 63 - 1].map PyVal.vInt
  else if listContainsSub "char".toList data_type then
    if listContainsSub "unsigned".toList data_type then
      [0, 1, 65, 90, 97, 122, 255].map PyVal.vInt
    else [-128, 0, 32, 65, 90, 97, 122, 127].map PyVal.vInt
  else if data_type = "float".toList then
    [-(10 ^ 38 : ℚ), -(2001 / 2), -1, -(1 / 10), 0, 1 / 10, 1, 2001 / 2,
      10 ^ 38].map (fun q => PyVal.vFloat (PyFloat.finite q))
  else if data_type = "double".toList then
    [-(10 ^ 308 : ℚ), -(2001 / 2), -1, -(1 / 10), 0, 1 / 10, 1, 2001 / 2,
      10 ^ 308].map (fun q => PyVal.vFloat (PyFloat.finite q))
  else if param.is_pointer then [PyVal.vNone]
  else [0, 1, 100].map PyVal.vInt

/-- `InputGenerator.generate_edge_cases` (input_generator.py lines
83-116); `-0.0` is modelled as the rational `0`. -/
def generate_edge_cases (param : CVariable) : List PyVal :=
  let data_type := pyLower param.data_type
  if listContainsSub "int".toList data_type then
    if listContainsSub "unsigned".toList data_type then
      [0, 2 ^ 32 - 1, 2 ^ 32].map PyVal.vInt
    else [-(2 ^ 31) - 1, -(2 ^ 31), 2 ^ 31 - 1, 2 ^ 31].map PyVal.vInt
  else if listContainsSub "unsigned".toList data_type then
    [0, -1].map PyVal.vInt
  else if data_type = "float".toList ∨ data_type = "double".toList then
    [PyVal.vFloat (PyFloat.finite 0), PyVal.vFloat (PyFloat.finite 0),
      PyVal.vFloat (PyFloat.inf true), PyVal.vFloat (PyFloat.inf false)]
  else if param.is_pointer then [PyVal.vNone]
  else []

/-- `InputGenerator.generate_random_values` (input_generator.py lines
118-171).  The seeded `random` draws are abstracted into the oracles
`randI`/`randF` (one draw per loop index); each loop iteration appends
exactly one value whatever the branch. -/
def generate_random_values (randI : Nat → Int) (randF : Nat → ℚ)
    (param : CVariable) (count : Nat) : List PyVal :=
  (List.range count).map (fun i =>
    let data_type := pyLower param.data_type
    if listContainsSub "int".toList data_type then PyVal.vInt (randI i)
    else if listContainsSub "short".toList data_type then PyVal.vInt (randI i)
    else if listContainsSub "char".toList data_type then PyVal.vInt (randI i)
    else if data_type = "float".toList then PyVal.vFloat (PyFloat.finite (randF i))
    else if data_type = "double".toList then PyVal.vFloat (PyFloat.finite (randF i))
    else PyVal.vInt (randI i))

/-- `InputGenerator._get_default_value` (input_generator.py lines
248-257). -/
def getDefaultValue (param : CVariable) : PyVal :=
  let data_type := pyLower param.data_type
  if param.is_pointer then PyVal.vNone
  else if listContainsSub "float".toList data_type ||
      listContainsSub "double".toList data_type then
    PyVal.vFloat (PyFloat.finite 0)
  else PyVal.vInt 0

/-- The strategy dispatch inside the parameter loop of
`generate_combinations` (input_generator.py lines 197-213). -/
def strategyValues (randI : Nat → Int) (randF : Nat → ℚ)
    (strategy : List Char) (param : CVariable) : List PyVal :=
  if strategy = "boundary".toList then generate_boundary_values param
  else if strategy = "edge".toList then generate_edge_cases param
  else if strategy = "random".toList then
    generate_random_values randI randF param 5
  else if strategy = "all".toList then
    generate_boundary_values param ++ generate_edge_cases param ++
      generate_random_values randI randF param 3
  else []

/-- `InputGenerator.generate_combinations` (input_generator.py lines
173-246).  Input dicts are built key-by-key like the Python loops. -/
def generate_combinations (randI : Nat → Int) (randF : Nat → ℚ)
    (function : CFunction) (strategy : List Char) :
    List (List (List Char × PyVal)) :=
  if function.parameters = [] then [[]]
  else
    let param_values : List (List Char × List PyVal) :=
      function.parameters.foldl (fun pv param =>
        pyDictSet pv param.name (strategyValues randI randF strategy param)) []
    let combos1 : List (List (List Char × PyVal)) :=
      param_values.flatMap (fun pv =>
        pv.2.map (fun v =>
          function.parameters.foldl (fun d p =>
            pyDictSet d p.name
              (if p.name = pv.1 then v else getDefaultValue p)) []))
    if strategy = "boundary".toList ∨ strategy = "all".toList then
      let min_inputs := function.parameters.foldl (fun d param =>
        match dictGet param_values param.name with
        | some (v :: _) => pyDictSet d param.name v
        | _ => d) []
      let max_inputs := function.parameters.foldl (fun d param =>
        match dictGet param_values param.name with
        | some vals =>
          match vals.getLast? with
          | some v => pyDictSet d param.name v
          | none => d
        | none => d) []
      combos1 ++ [min_inputs, max_inputs]
    else combos1

theorem pyDictSet_fresh {V : Type} (d : List (List Char × V)) (k : List Char)
    (v : V) (h : d.any (fun p => p.1 = k) = false) :
    pyDictSet d k v = d ++ [(k, v)] := by
  unfold pyDictSet
  rw [if_neg (by simp [h])]

/-- With distinct parameter names, the `param_values` dict lists one entry
per parameter, in order. -/
theorem build_param_values (randI : Nat → Int) (randF : Nat → ℚ)
    (strategy : List Char) :
    ∀ (params : List CVariable) (acc : List (List Char × List PyVal)),
      (params.map CVariable.name).Nodup →
      (∀ p ∈ params, acc.any (fun q => q.1 = p.name) = false) →
      params.foldl (fun pv param =>
        pyDictSet pv param.name (strategyValues randI randF strategy param)) acc =
      acc ++ params.map (fun p =>
        (p.name, strategyValues randI randF strategy p)) := by
  intro params
  induction params with
  | nil => intro acc _ _; simp
  | cons hd rest ih =>
    intro acc hnodup hfresh
    rw [List.foldl_cons,
      pyDictSet_fresh acc hd.name _ (hfresh hd (List.mem_cons_self _ _))]
    rw [List.map_cons, List.nodup_cons] at hnodup
    rw [ih _ hnodup.2 ?hf]
    · simp
    case hf =>
      intro p hp
      rw [List.any_append]
      have h1 : acc.any (fun q => q.1 = p.name) = false :=
        hfresh p (List.mem_cons_of_mem _ hp)
      have h2 : ([(hd.name, strategyValues randI randF strategy hd)].any
          (fun q => q.1 = p.name)) = false := by
        have : hd.name ≠ p.name := by
          intro heq
          exact hnodup.1 (heq ▸ List.mem_map_of_mem CVariable.name hp)
        simp [this]
      rw [h1, h2]
      rfl

theorem length_flatMap_vals {α : Type} (L : List (List Char × List PyVal))
    (g : List Char × List PyVal → PyVal → α) :
    (L.flatMap (fun pv => pv.2.map (g pv))).length =
      (L.map (fun pv => pv.2.length)).sum := by
  induction L with
  | nil => rfl
  | cons hd rest ih => simp [List.flatMap_cons, ih]

/-- C7 (amended): for every function with at least one (uniquely named)
parameter, `generate_combinations` emits one test per generated value of
each parameter (others held at their defaults); the extra all-minimums and
all-maximums tests are emitted only for the `boundary` strategy (the
Python guard is `strategy in ['boundary', 'all']`), so the count is
`Σ|Vi| + 2` for `boundary` and `Σ|Vi|` for `edge` and `random`. -/
theorem C7_combination_count (randI : Nat → Int) (randF : Nat → ℚ)
    (f : CFunction) (strategy : List Char)
    (hstrat : strategy = "boundary".toList ∨ strategy = "edge".toList ∨
      strategy = "random".toList)
    (hne : f.parameters ≠ [])
    (hnodup : (f.parameters.map CVariable.name).Nodup) :
    (generate_combinations randI randF f strategy).length =
      (f.parameters.map (fun p =>
        (strategyValues randI randF strategy p).length)).sum +
      (if strategy = "boundary".toList then 2 else 0) := by
  unfold generate_combinations
  rw [if_neg hne]
  dsimp only
  rw [build_param_values randI randF strategy f.parameters [] hnodup
    (by intro p _; rfl), List.nil_append]
  rcases hstrat with hb | he | hr
  · rw [if_pos (Or.inl hb), if_pos hb, List.length_append,
      length_flatMap_vals]
    simp [List.map_map]
    rfl
  · subst he
    rw [if_neg (by decide), if_neg (by decide), length_flatMap_vals]
    simp [List.map_map]
    rfl
  · subst hr
    rw [if_neg (by decide), if_neg (by decide), length_flatMap_vals]
    simp [List.map_map]
    rfl

/-- Counterexample for C7 as stated: a one-parameter `int` function under
the `edge` strategy yields 4 combinations (one per edge value), not
`4 + 2`: no all-minimums/all-maximums tests are emitted for `edge`. -/
theorem C7_counterexample :
    (generate_combinations (fun _ => 0) (fun _ => 0)
        ⟨"f".toList, [⟨"a".toList, "int".toList, false⟩]⟩ "edge".toList).length = 4 ∧
    (generate_combinations (fun _ => 0) (fun _ => 0)
        ⟨"f".toList, [⟨"a".toList, "int".toList, false⟩]⟩ "edge".toList).length ≠
      (([⟨"a".toList, "int".toList, false⟩] : List CVariable).map (fun p =>
        (strategyValues (fun _ => 0) (fun _ => 0) "edge".toList p).length)).sum + 2 := by
  constructor
  · decide
  · decide

/-- Witness for C7 (amended) on a one-parameter `int` function with the
`boundary` strategy (7 boundary values + 2 = 9 combinations). -/
theorem C7_witness :
    (generate_combinations (fun _ => 0) (fun _ => 0)
        ⟨"f".toList, [⟨"a".toList, "int".toList, false⟩]⟩ "boundary".toList).length =
      (([⟨"a".toList, "int".toList, false⟩] : List CVariable).map (fun p =>
        (strategyValues (fun _ => 0) (fun _ => 0) "boundary".toList p).length)).sum +
      (if "boundary".toList = "boundary".toList then 2 else 0) :=
  C7_combination_count (fun _ => 0) (fun _ => 0)
    ⟨"f".toList, [⟨"a".toList, "int".toList, false⟩]⟩ "boundary".toList
    (Or.inl rfl) (by decide) (by decide)

/-! ## GeminiCToCSharpConverter assembly (gemini_c_to_csharp_converter.py) -/

/-- The slice of `GeminiResponse` consumed by assembly. -/
structure GeminiResponse where
  success : Bool
  converted_code : List Char
deriving DecidableEq, Repr

/-- The slice of `CProgram` consumed by assembly: entity names in
declaration order. -/
structure ConverterProgram where
  enums : List (List Char) := []
  structs : List (List Char) := []
  functions : List (List Char) := []
deriving DecidableEq, Repr

/-- `GeminiCToCSharpConverter._assemble_csharp_code` (lines 649-698).
The local `chunk_order = ["program_structure", "defines", "globals"]`
list in the source is dead code: only enum, struct and function chunks
are emitted. -/
def assembleCSharpCode (converted_chunks : List (List Char × GeminiResponse))
    (program : ConverterProgram) : List Char :=
  let code_lines : List (List Char) :=
    ["using System;".toList, "using System.Runtime.InteropServices;".toList, [],
     "public class Program".toList, "\x7b".toList, []]
  let code_lines := program.enums.foldl (fun ls name =>
    match dictGet converted_chunks ("enum_".toList ++ name) with
    | some r =>
      if r.success then ls ++ ["    ".toList ++ r.converted_code, []] else ls
    | none => ls) code_lines
  let code_lines := program.structs.foldl (fun ls name =>
    match dictGet converted_chunks ("struct_".toList ++ name) with
    | some r =>
      if r.success then ls ++ ["    ".toList ++ r.converted_code, []] else ls
    | none => ls) code_lines
  let code_lines := program.functions.foldl (fun ls name =>
    match dictGet converted_chunks ("func_".toList ++ name) with
    | some r =>
      if r.success then ls ++ ["    ".toList ++ r.converted_code, []] else ls
    | none => ls) code_lines
  joinLines (code_lines ++ ["\x7d".toList])

/-- `line.strip().startswith('using ')`. -/
def isUsingLine (line : List Char) : Bool :=
  List.isPrefixOf "using ".toList (pyStrip line)

/-- The filtering loop of `_post_process_code` (lines 703-713), with the
`seen_usings` set of stripped using-lines. -/
def postFilter : List (List Char) → List (List Char) → List (List Char)
  | [], _ => []
  | line :: rest, seen =>
    if isUsingLine line then
      if pyStrip line ∈ seen then postFilter rest seen
      else line :: postFilter rest (pyStrip line :: seen)
    else line :: postFilter rest seen

/-- `GeminiCToCSharpConverter._post_process_code` (lines 700-715). -/
def postProcessCode (code : List Char) : List Char :=
  joinLines (postFilter (splitLines code) [])

/-- Duplicate removal keeping the first occurrence, relative to an
already-seen set. -/
def dedupKeepFirstFrom (seen : List (List Char)) :
    List (List Char) → List (List Char)
  | [] => []
  | a :: r =>
    if a ∈ seen then dedupKeepFirstFrom seen r
    else a :: dedupKeepFirstFrom (a :: seen) r

theorem assemble_fold (chunks : List (List Char × GeminiResponse))
    (pre : List Char) (names : List (List Char)) :
    ∀ acc : List (List Char),
      names.foldl (fun ls name =>
        match dictGet chunks (pre ++ name) with
        | some r =>
          if r.success then ls ++ ["    ".toList ++ r.converted_code, []] else ls
        | none => ls) acc =
      acc ++ names.flatMap (fun name =>
        match dictGet chunks (pre ++ name) with
        | some r =>
          if r.success then ["    ".toList ++ r.converted_code, []] else []
        | none => []) := by
  induction names with
  | nil => intro acc; simp
  | cons hd rest ih =>
    intro acc
    rw [List.foldl_cons, List.flatMap_cons]
    cases h : dictGet chunks (pre ++ hd) with
    | none =>
      rw [ih]
      simp
    | some r =>
      dsimp only
      cases hr : r.success with
      | false =>
        rw [if_neg (by simp), if_neg (by simp), ih]
        simp
      | true =>
        rw [if_pos rfl, if_pos rfl, ih]
        simp

theorem postFilter_mem (L : List (List Char)) :
    ∀ (seen : List (List Char)) (l : List Char),
      l ∈ postFilter L seen → l ∈ L := by
  induction L with
  | nil => intro seen l hl; simp [postFilter] at hl
  | cons line rest ih =>
    intro seen l hl
    unfold postFilter at hl
    by_cases h1 : isUsingLine line
    · rw [if_pos h1] at hl
      by_cases h2 : pyStrip line ∈ seen
      · rw [if_pos h2] at hl
        exact List.mem_cons_of_mem _ (ih _ l hl)
      · rw [if_neg h2, List.mem_cons] at hl
        rcases hl with rfl | hl
        · exact List.mem_cons_self _ _
        · exact List.mem_cons_of_mem _ (ih _ l hl)
    · rw [if_neg h1, List.mem_cons] at hl
      rcases hl with rfl | hl
      · exact List.mem_cons_self _ _
      · exact List.mem_cons_of_mem _ (ih _ l hl)

theorem postFilter_ne_nil (line : List Char) (rest : List (List Char)) :
    postFilter (line :: rest) [] ≠ [] := by
  unfold postFilter
  by_cases h1 : isUsingLine line
  · rw [if_pos h1, if_neg (by simp)]
    simp
  · rw [if_neg h1]
    simp

theorem postFilter_keeps_non_using (L : List (List Char)) :
    ∀ seen : List (List Char),
      (postFilter L seen).filter (fun l => !(isUsingLine l)) =
        L.filter (fun l => !(isUsingLine l)) := by
  induction L with
  | nil => intro seen; rfl
  | cons line rest ih =>
    intro seen
    unfold postFilter
    by_cases h1 : isUsingLine line
    · rw [if_pos h1]
      by_cases h2 : pyStrip line ∈ seen
      · rw [if_pos h2, ih seen, List.filter_cons_of_neg (by simp [h1])]
      · rw [if_neg h2, List.filter_cons_of_neg (by simp [h1]),
          List.filter_cons_of_neg (by simp [h1]), ih]
    · rw [if_neg h1, List.filter_cons_of_pos (by simp [h1]),
        List.filter_cons_of_pos (by simp [h1]), ih]

theorem dedupKeepFirstFrom_cons_mem (seen : List (List Char))
    (a : List Char) (r : List (List Char)) (h : a ∈ seen) :
    dedupKeepFirstFrom seen (a :: r) = dedupKeepFirstFrom seen r := by
  simp [dedupKeepFirstFrom, h]

theorem dedupKeepFirstFrom_cons_not_mem (seen : List (List Char))
    (a : List Char) (r : List (List Char)) (h : a ∉ seen) :
    dedupKeepFirstFrom seen (a :: r) =
      a :: dedupKeepFirstFrom (a :: seen) r := by
  simp [dedupKeepFirstFrom, h]

theorem postFilter_dedups_usings (L : List (List Char)) :
    ∀ seen : List (List Char),
      ((postFilter L seen).filter isUsingLine).map pyStrip =
        dedupKeepFirstFrom seen ((L.filter isUsingLine).map pyStrip) := by
  induction L with
  | nil => intro seen; rfl
  | cons line rest ih =>
    intro seen
    unfold postFilter
    by_cases h1 : isUsingLine line
    · rw [if_pos h1]
      by_cases h2 : pyStrip line ∈ seen
      · rw [if_pos h2, List.filter_cons_of_pos (by simp [h1]),
          List.map_cons, dedupKeepFirstFrom_cons_mem _ _ _ h2]
        exact ih seen
      · rw [if_neg h2, List.filter_cons_of_pos (by simp [h1]),
          List.map_cons, List.filter_cons_of_pos (by simp [h1]),
          List.map_cons, dedupKeepFirstFrom_cons_not_mem _ _ _ h2, ih]
    · rw [if_neg h1, List.filter_cons_of_neg (by simp [h1]),
        List.filter_cons_of_neg (by simp [h1]), ih]

/-- C8 (amended): the assembled C# output is the fixed `using` lines and
class header, then the successfully converted enum, struct and function
chunks in program order, then the class footer — the `defines` and
`globals` chunks are never consulted (the canonical `chunk_order` list in
the source is dead code); post-processing keeps all non-`using` lines in
order and deduplicates `using` lines by their stripped text, keeping the
first occurrence of each. -/
theorem C8_assembly_order_and_dedup
    (chunks : List (List Char × GeminiResponse)) (program : ConverterProgram)
    (code : List Char) :
    assembleCSharpCode chunks program =
      joinLines
        (["using System;".toList, "using System.Runtime.InteropServices;".toList,
          [], "public class Program".toList, "\x7b".toList, []] ++
         program.enums.flatMap (fun name =>
           match dictGet chunks ("enum_".toList ++ name) with
           | some r =>
             if r.success then ["    ".toList ++ r.converted_code, []] else []
           | none => []) ++
         program.structs.flatMap (fun name =>
           match dictGet chunks ("struct_".toList ++ name) with
           | some r =>
             if r.success then ["    ".toList ++ r.converted_code, []] else []
           | none => []) ++
         program.functions.flatMap (fun name =>
           match dictGet chunks ("func_".toList ++ name) with
           | some r =>
             if r.success then ["    ".toList ++ r.converted_code, []] else []
           | none => []) ++
         ["\x7d".toList]) ∧
    (splitLines (postProcessCode code)).filter (fun l => !(isUsingLine l)) =
      (splitLines code).filter (fun l => !(isUsingLine l)) ∧
    ((splitLines (postProcessCode code)).filter isUsingLine).map pyStrip =
      dedupKeepFirstFrom []
        (((splitLines code).filter isUsingLine).map pyStrip) := by
  have hL : splitLines (postProcessCode code) = postFilter (splitLines code) [] := by
    unfold postProcessCode
    cases hsp : splitLines code with
    | nil => exact absurd hsp (splitLines_ne_nil code)
    | cons l rest =>
      apply splitLines_joinLines _ (postFilter_ne_nil l rest)
      intro m hm
      exact splitLines_no_newline code m
        (hsp ▸ postFilter_mem (l :: rest) [] m hm)
  refine ⟨?_, ?_, ?_⟩
  · unfold assembleCSharpCode
    dsimp only
    rw [assemble_fold, assemble_fold, assemble_fold]
  · rw [hL, postFilter_keeps_non_using]
  · rw [hL, postFilter_dedups_usings]

/-- Counterexample for C8 as stated: with successfully converted
`defines` and `globals` chunks present, the assembled output contains the
enum chunk but neither the defines nor the globals translation — those
chunk types are never emitted. -/
theorem C8_counterexample :
    (listContainsSub "DEF".toList
      (assembleCSharpCode
        [("defines".toList, ⟨true, "DEF".toList⟩),
         ("enum_E".toList, ⟨true, "ENUM".toList⟩),
         ("globals".toList, ⟨true, "GLOB".toList⟩)]
        ⟨["E".toList], [], []⟩) = false) ∧
    (listContainsSub "GLOB".toList
      (assembleCSharpCode
        [("defines".toList, ⟨true, "DEF".toList⟩),
         ("enum_E".toList, ⟨true, "ENUM".toList⟩),
         ("globals".toList, ⟨true, "GLOB".toList⟩)]
        ⟨["E".toList], [], []⟩) = false) ∧
    (listContainsSub "ENUM".toList
      (assembleCSharpCode
        [("defines".toList, ⟨true, "DEF".toList⟩),
         ("enum_E".toList, ⟨true, "ENUM".toList⟩),
         ("globals".toList, ⟨true, "GLOB".toList⟩)]
        ⟨["E".toList], [], []⟩) = true) := by
  refine ⟨?_, ?_, ?_⟩
  · decide
  · decide
  · decide

/-! ## RateLimiter (gemini_c_to_csharp_converter.py lines 20-87)

`_extract_retry_delay` first tries `json.loads` on bodies starting with
`\x7b`; JSON is modelled by the grammar below (numbers as exact rationals,
digit runs without the leading-zero restriction, raw control characters
accepted inside strings). -/

inductive Json : Type
  | jnull
  | jbool (b : Bool)
  | jnum (q : ℚ)
  | jstr (s : List Char)
  | jarr (xs : List Json)
  | jobj (fields : List (List Char × Json))

/-- JSON whitespace. -/
def jsonWs (c : Char) : Bool :=
  c = ' ' || c = '\t' || c = '\n' || c = '\r'

/-- Hex digit value. -/
def hexVal (c : Char) : Nat :=
  if c.isDigit then c.toNat - Char.toNat '0'
  else if 'a' ≤ c ∧ c ≤ 'f' then c.toNat - Char.toNat 'a' + 10
  else if 'A' ≤ c ∧ c ≤ 'F' then c.toNat - Char.toNat 'A' + 10
  else 0

/-- JSON string body after the opening quote, with escapes. -/
def parseJsonStr : List Char → Option (List Char × List Char)
  | [] => none
  | '"' :: r => some ([], r)
  | '\\' :: 'u' :: h1 :: h2 :: h3 :: h4 :: r =>
    (parseJsonStr r).map (fun p =>
      (Char.ofNat (((hexVal h1 * 16 + hexVal h2) * 16 + hexVal h3) * 16 +
        hexVal h4) :: p.1, p.2))
  | '\\' :: e :: r =>
    let c : Char :=
      if e = 'n' then '\n' else if e = 't' then '\t'
      else if e = 'r' then '\r' else if e = 'b' then '\x08'
      else if e = 'f' then '\x0c' else e
    (parseJsonStr r).map (fun p => (c :: p.1, p.2))
  | c :: r => (parseJsonStr r).map (fun p => (c :: p.1, p.2))

/-- JSON number: `[-] digits [. digits] [e/E [sign] digits]`. -/
def parseJsonNum (s : List Char) : Option (ℚ × List Char) :=
  let (sgn, s1) : ℚ × List Char :=
    match s with
    | '-' :: r => (-1, r)
    | r => (1, r)
  let ip := s1.takeWhile Char.isDigit
  let r1 := s1.dropWhile Char.isDigit
  if ip = [] then none
  else
    let (m, r2) : ℚ × List Char :=
      match r1 with
      | '.' :: rf =>
        let fp := rf.takeWhile Char.isDigit
        ((digitsToNat ip : ℚ) + (digitsToNat fp : ℚ) / (10 : ℚ) ^ fp.length,
          rf.dropWhile Char.isDigit)
      | _ => ((digitsToNat ip : ℚ), r1)
    match r2 with
    | 'e' :: re =>
      let (es, r3) : Int × List Char :=
        match re with
        | '+' :: r3 => (1, r3)
        | '-' :: r3 => (-1, r3)
        | r3 => (1, r3)
      let ed := r3.takeWhile Char.isDigit
      if ed = [] then none
      else some (sgn * m * (10 : ℚ) ^ (es * (digitsToNat ed : Int)),
        r3.dropWhile Char.isDigit)
    | 'E' :: re =>
      let (es, r3) : Int × List Char :=
        match re with
        | '+' :: r3 => (1, r3)
        | '-' :: r3 => (-1, r3)
        | r3 => (1, r3)
      let ed := r3.takeWhile Char.isDigit
      if ed = [] then none
      else some (sgn * m * (10 : ℚ) ^ (es * (digitsToNat ed : Int)),
        r3.dropWhile Char.isDigit)
    | _ => some (sgn * m, r2)

mutual

/-- One JSON value (fuel-indexed recursive-descent). -/
def parseJsonValue : Nat → List Char → Option (Json × List Char)
  | 0, _ => none
  | fuel + 1, s =>
    let s := s.dropWhile jsonWs
    if List.isPrefixOf "null".toList s then some (Json.jnull, s.drop 4)
    else if List.isPrefixOf "true".toList s then some (Json.jbool true, s.drop 4)
    else if List.isPrefixOf "false".toList s then some (Json.jbool false, s.drop 5)
    else
      match s with
      | '"' :: r => (parseJsonStr r).map (fun p => (Json.jstr p.1, p.2))
      | '[' :: r =>
        (parseJsonArrItems fuel (r.dropWhile jsonWs) true).map
          (fun p => (Json.jarr p.1, p.2))
      | '\x7b' :: r =>
        (parseJsonObjItems fuel (r.dropWhile jsonWs) true).map
          (fun p => (Json.jobj p.1, p.2))
      | _ => (parseJsonNum s).map (fun p => (Json.jnum p.1, p.2))

/-- Array items after `[` (whitespace already skipped); `first` marks that
no item has been read yet. -/
def parseJsonArrItems : Nat → List Char → Bool → Option (List Json × List Char)
  | 0, _, _ => none
  | fuel + 1, s, first =>
    match s with
    | ']' :: r => if first then some ([], r) else none
    | _ =>
      match parseJsonValue fuel s with
      | none => none
      | some (v, rest) =>
        match rest.dropWhile jsonWs with
        | ',' :: r2 =>
          (parseJsonArrItems fuel (r2.dropWhile jsonWs) false).map
            (fun p => (v :: p.1, p.2))
        | ']' :: r2 => some ([v], r2)
        | _ => none

/-- Object members after `\x7b` (whitespace already skipped). -/
def parseJsonObjItems : Nat → List Char → Bool →
    Option (List (List Char × Json) × List Char)
  | 0, _, _ => none
  | fuel + 1, s, first =>
    match s with
    | '\x7d' :: r => if first then some ([], r) else none
    | '"' :: r =>
      match parseJsonStr r with
      | none => none
      | some (key, r1) =>
        match r1.dropWhile jsonWs with
        | ':' :: r2 =>
          match parseJsonValue fuel r2 with
          | none => none
          | some (v, rest) =>
            match rest.dropWhile jsonWs with
            | ',' :: r3 =>
              (parseJsonObjItems fuel (r3.dropWhile jsonWs) false).map
                (fun p => ((key, v) :: p.1, p.2))
            | '\x7d' :: r3 => some ([(key, v)], r3)
            | _ => none
        | _ => none
    | _ => none

end

/-- `json.loads`: a fuel of twice the length dominates the recursion
depth (each two nested calls consume at least one character). -/
def jsonLoads (s : List Char) : Option Json :=
  match parseJsonValue (2 * s.length + 2) s with
  | some (v, rest) => if rest.dropWhile jsonWs = [] then some v else none
  | none => none

/-- Python dict lookup on a parsed JSON object; `json.loads` keeps the
last of duplicate keys. -/
def objGet (fields : List (List Char × Json)) (k : List Char) : Option Json :=
  (fields.reverse.find? (fun p => p.1 = k)).map (·.2)

/-- The `for detail in error_data['error']['details']` loop.  A non-dict
detail raises `AttributeError` (caught by the bare `except`, falling to
the regex), as does a non-string `retryDelay`; a missing or non-`s`
`retryDelay` just continues the loop. -/
def scanRetryDetails : List Json → Option Int
  | [] => none
  | Json.jobj d :: rest =>
    match objGet d "@type".toList with
    | some (Json.jstr t) =>
      if t = "type.googleapis.com/google.rpc.RetryInfo".toList then
        match objGet d "retryDelay".toList with
        | none =>
          -- default '' does not end with 's': continue
          scanRetryDetails rest
        | some (Json.jstr s) =>
          match s.getLast? with
          | some 's' =>
            match pyParseInt (pyStrip (s.dropLast)) with
            | some n => some n
            | none => none   -- int() raises ValueError: fall to the regex
          | _ => scanRetryDetails rest
        | some _ => none     -- .endswith on a non-string raises
      else scanRetryDetails rest
    | _ => scanRetryDetails rest   -- != comparison is False: continue
  | _ :: _ => none                 -- detail.get on a non-dict raises

/-- The regex fallback `re.search(r'retry in (\d+(?:\.\d+)?)s', text,
re.IGNORECASE)` at one start position (on the lowercased text); maximal
digit munch is equivalent to the regex's backtracking here. -/
def tryRetryAt (s : List Char) : Option Int :=
  if List.isPrefixOf "retry in ".toList s then
    let t := s.drop 9
    let d := t.takeWhile Char.isDigit
    if d = [] then none
    else
      match t.drop d.length with
      | '.' :: r2 =>
        let f := r2.takeWhile Char.isDigit
        if f ≠ [] then
          match r2.drop f.length with
          | 's' :: _ => some (digitsToNat d : Int)
          | _ => none
        else none
      | 's' :: _ => some (digitsToNat d : Int)
      | _ => none
  else none

/-- `re.search`: leftmost match over start positions.  `int(float(g))`
truncates the non-negative matched number to its integer digits. -/
def findRetryIn : List Char → Option Int
  | [] => none
  | c :: r =>
    match tryRetryAt (c :: r) with
    | some n => some n
    | none => findRetryIn r

/-- `RateLimiter._extract_retry_delay` (lines 66-87). -/
def extractRetryDelay (error_response : List Char) : Option Int :=
  let fromJson : Option Int :=
    match error_response with
    | '\x7b' :: _ =>
      match jsonLoads error_response with
      | some (Json.jobj fields) =>
        match objGet fields "error".toList with
        | some (Json.jobj efields) =>
          match objGet efields "details".toList with
          | some (Json.jarr details) => scanRetryDetails details
          | _ => none
        | _ => none
      | _ => none
    | _ => none
  match fromJson with
  | some n => some n
  | none => findRetryIn (pyLower error_response)

/-- `RateLimiter.handle_quota_error` (lines 49-64): `some delay` models
`return True` after sleeping `delay` seconds, `none` models
`return False`. -/
def handleQuotaError (max_retries : Nat) (error_response : List Char)
    (attempt : Nat) : Option Int :=
  if listContainsSub "429".toList error_response &&
      listContainsSub "quota".toList (pyLower error_response) then
    if attempt < max_retries then
      some (match extractRetryDelay error_response with
            | some d => d
            | none => min (60 * 2 ^ attempt : Int) 300)
    else none
  else none

/-- C6: on a 429 response indicating a quota error, with the attempt count
below `max_retries`, the retry delay is the server-suggested one when
present (structured JSON `RetryInfo.retryDelay` token ending in `s`, or
free-text `retry in Ns`), else `min(60·2^attempt, 300)`; and on the
literal RetryInfo body of the spec the extracted delay is 12 seconds. -/
theorem C6_quota_retry_delay (max_retries attempt : Nat) (text : List Char)
    (h429 : listContainsSub "429".toList text = true)
    (hquota : listContainsSub "quota".toList (pyLower text) = true)
    (hatt : attempt < max_retries) :
    handleQuotaError max_retries text attempt =
      some (match extractRetryDelay text with
            | some d => d
            | none => min (60 * 2 ^ attempt : Int) 300) ∧
    extractRetryDelay ("\x7b\"error\":\x7b\"details\":[\x7b\"@type\":\"type.googleapis.com/google.rpc.RetryInfo\",\"retryDelay\":\"12s\"\x7d]\x7d\x7d").toList =
      some 12 := by
  constructor
  · unfold handleQuotaError
    rw [if_pos (by rw [h429, hquota]; rfl), if_pos hatt]
  · decide

/-- Witness for C6 on a 429 quota body with a free-text delay. -/
theorem C6_witness :
    (handleQuotaError 3 "HTTP 429: quota exceeded, retry in 7s".toList 1 =
      some (match extractRetryDelay
              "HTTP 429: quota exceeded, retry in 7s".toList with
            | some d => d
            | none => min (60 * 2 ^ 1 : Int) 300)) ∧
    extractRetryDelay ("\x7b\"error\":\x7b\"details\":[\x7b\"@type\":\"type.googleapis.com/google.rpc.RetryInfo\",\"retryDelay\":\"12s\"\x7d]\x7d\x7d").toList =
      some 12 :=
  C6_quota_retry_delay 3 1 "HTTP 429: quota exceeded, retry in 7s".toList
    (by decide) (by decide) (by decide)

/-! ## DependenciesAnalysis (dependencies_analysis.py)

A file-level dependency graph `Dict[str, Set[str]]` is an
insertion-ordered association list; Python sets are duplicate-free lists.
The well-formedness facts guaranteed by Python dicts/sets (unique keys,
duplicate-free adjacency) are explicit hypotheses. -/

abbrev FileGraph := List (String × List String)

/-- Dict keys are unique; adjacency sets hold no duplicates. -/
structure GraphWF (g : FileGraph) : Prop where
  keys_nodup : (g.map Prod.fst).Nodup
  adj_nodup : ∀ p ∈ g, p.2.Nodup

/-- `nodes = set(graph.keys()); nodes.update(deps)`. -/
def nodesOf (g : FileGraph) : List String :=
  ((g.map Prod.fst) ++ g.flatMap Prod.snd).dedup

/-- `graph.get(u, set())`. -/
def adjOf (g : FileGraph) (u : String) : List String :=
  match g.find? (fun p => p.1 = u) with
  | some p => p.2
  | none => []

/-- An edge `u→v` of the graph: `u`'s adjacency set contains `v`. -/
def isEdge (g : FileGraph) (u v : String) : Prop :=
  ∃ vs, (u, vs) ∈ g ∧ v ∈ vs

/-- Pointwise function update (dict assignment on a total-function
model). -/
def updF {β : Type} (f : String → β) (k : String) (b : β) : String → β :=
  fun x => if x = k then b else f x

/-- The in-degree map after `for u in graph: for v in graph[u]:
indeg[v] += 1` (all nodes start at 0). -/
def indeg0 (g : FileGraph) : String → Int :=
  g.foldl (fun f p => p.2.foldl (fun f v => updF f v (f v + 1)) f)
    (fun _ => 0)

/-- The inner loop of one Kahn iteration: decrement the in-degree of each
successor, enqueueing those that reach zero. -/
def kahnStep (indeg : String → Int) (q : List String) (vs : List String) :
    List String × (String → Int) :=
  vs.foldl (fun st v =>
    let d := st.2 v - 1
    (if d = 0 then st.1 ++ [v] else st.1, updF st.2 v d)) (q, indeg)

/-- The Kahn worklist loop (`while q:` in `topological_sort`); the fuel
passed by `topological_sort` dominates the number of iterations. -/
def kahnLoop (g : FileGraph) :
    Nat → List String → (String → Int) → List String → List String
  | 0, _, _, order => order
  | fuel + 1, q, indeg, order =>
    match q with
    | [] => order
    | u :: qrest =>
      let st := kahnStep indeg qrest (adjOf g u)
      kahnLoop g fuel st.1 st.2 (order ++ [u])

/-- DFS colors of `find_cycles_dfs`. -/
inductive Color : Type
  | white | gray | black
deriving DecidableEq, Repr

structure DfsSt where
  color : String → Color
  cycles : List (List String)

/-- The recursive `dfs(u, stack)` of `find_cycles_dfs`
(dependencies_analysis.py lines 66-81): gray `u`, scan successors (white →
recurse on a copy of the stack, gray-and-on-stack → record the cycle
`stack[i:] + [v]`), then blacken `u`.  The fuel dominates the recursion
depth (one white node is grayed per nested call). -/
def dfsVisit (g : FileGraph) : Nat → String → List String → DfsSt → DfsSt
  | 0, _, _, st => st
  | fuel + 1, u, stack, st =>
    let st1 : DfsSt := { st with color := updF st.color u Color.gray }
    let stack1 := stack ++ [u]
    let st2 := (adjOf g u).foldl (fun s v =>
      match s.color v with
      | Color.white => dfsVisit g fuel v stack1 s
      | Color.gray =>
        if v ∈ stack1 then
          { s with cycles :=
              s.cycles ++ [stack1.drop (stack1.indexOf v) ++ [v]] }
        else s
      | Color.black => s) st1
    { st2 with color := updF st2.color u Color.black }

/-- `DependenciesAnalysis.find_cycles_dfs` (lines 61-85): DFS from every
key of the graph, in order. -/
def findCyclesDfs (g : FileGraph) : List (List String) :=
  ((g.map Prod.fst).foldl (fun st u =>
    if st.color u = Color.white then
      dfsVisit g ((nodesOf g).length + 1) u [] st
    else st) { color := fun _ => Color.white, cycles := [] }).cycles

/-- `DependenciesAnalysis.topological_sort` (lines 88-112): Kahn's
algorithm; `(some order, [])` on success, `(none, cycles)` when the order
does not cover every node. -/
def topological_sort (g : FileGraph) : Option (List String) × List (List String) :=
  let nodes := nodesOf g
  let q0 := nodes.filter (fun u => indeg0 g u = 0)
  let order := kahnLoop g (nodes.length + 1) q0 (indeg0 g) []
  if order.length = nodes.length then (some order, [])
  else (none, findCyclesDfs g)

/-- In-degree as a count: occurrences of `v` in the adjacency sets of the
not-yet-popped keys. -/
def remCount (g : FileGraph) (order : List String) (v : String) : Nat :=
  ((g.filter (fun p => decide (p.1 ∉ order))).flatMap Prod.snd).count v

theorem updF_self {β : Type} (f : String → β) (k : String) (b : β) :
    updF f k b k = b := by
  simp [updF]

theorem updF_ne {β : Type} (f : String → β) (k x : String) (b : β)
    (h : x ≠ k) : updF f k b x = f x := by
  simp [updF, h]

theorem foldl_incr_eval (l : List String) :
    ∀ (f : String → Int) (v : String),
      (l.foldl (fun f w => updF f w (f w + 1)) f) v =
        f v + (l.count v : Int) := by
  induction l with
  | nil => intro f v; simp
  | cons hd tl ih =>
    intro f v
    rw [List.foldl_cons, ih]
    by_cases hv : v = hd
    · subst hv
      rw [updF_self, List.count_cons_self]
      push_cast
      ring
    · rw [updF_ne _ _ _ _ hv, List.count_cons_of_ne (by simpa using hv)]

theorem indeg0_eval (g : FileGraph) (v : String) :
    indeg0 g v = ((g.flatMap Prod.snd).count v : Int) := by
  unfold indeg0
  suffices h : ∀ f : String → Int,
      (g.foldl (fun f p => p.2.foldl (fun f v => updF f v (f v + 1)) f) f) v =
        f v + ((g.flatMap Prod.snd).count v : Int) by
    rw [h]
    simp
  induction g with
  | nil => intro f; simp
  | cons p g' ih =>
    intro f
    rw [List.foldl_cons, ih, foldl_incr_eval, List.flatMap_cons,
      List.count_append]
    push_cast
    ring

theorem kahnStep_spec (vs : List String) :
    ∀ (f : String → Int) (q : List String), vs.Nodup →
      (kahnStep f q vs).1 = q ++ vs.filter (fun v => decide (f v = 1)) ∧
      ∀ v, (kahnStep f q vs).2 v = f v - (if v ∈ vs then 1 else 0) := by
  induction vs with
  | nil =>
    intro f q _
    refine ⟨by simp [kahnStep], fun v => by simp [kahnStep]⟩
  | cons hd tl ih =>
    intro f q hnd
    rw [List.nodup_cons] at hnd
    have hstep : kahnStep f q (hd :: tl) =
        kahnStep (updF f hd (f hd - 1))
          (if f hd - 1 = 0 then q ++ [hd] else q) tl := by
      unfold kahnStep
      rw [List.foldl_cons]
    obtain ⟨ih1, ih2⟩ := ih (updF f hd (f hd - 1))
      (if f hd - 1 = 0 then q ++ [hd] else q) hnd.2
    constructor
    · rw [hstep, ih1]
      have hfilter : tl.filter (fun v => decide (updF f hd (f hd - 1) v = 1)) =
          tl.filter (fun v => decide (f v = 1)) := by
        apply List.filter_congr
        intro v hv
        have : v ≠ hd := fun h => hnd.1 (h ▸ hv)
        rw [updF_ne _ _ _ _ this]
      rw [hfilter]
      by_cases hhd : f hd = 1
      · rw [if_pos (by omega), List.filter_cons_of_pos (by simpa using hhd)]
        simp
      · rw [if_neg (by omega), List.filter_cons_of_neg (by simpa using hhd)]
    · intro v
      rw [hstep, ih2]
      by_cases hv : v = hd
      · subst hv
        rw [updF_self, if_neg hnd.1, if_pos (List.mem_cons_self _ _)]
        ring
      · rw [updF_ne _ _ _ _ hv]
        by_cases hvtl : v ∈ tl
        · rw [if_pos hvtl, if_pos (List.mem_cons_of_mem _ hvtl)]
        · rw [if_neg hvtl, if_neg (by
            rw [List.mem_cons]
            push_neg
            exact ⟨hv, hvtl⟩)]

theorem remCount_cons (p : String × List String) (g' : FileGraph)
    (order : List String) (v : String) :
    remCount (p :: g') order v =
      (if p.1 ∈ order then 0 else p.2.count v) + remCount g' order v := by
  unfold remCount
  by_cases h : p.1 ∈ order
  · rw [List.filter_cons_of_neg (by simpa using h), if_pos h]
    simp
  · rw [List.filter_cons_of_pos (by simpa using h), if_neg h,
      List.flatMap_cons, List.count_append]

theorem remCount_nil_order (g : FileGraph) (v : String) :
    remCount g [] v = (g.flatMap Prod.snd).count v := by
  unfold remCount
  congr 1
  rw [List.filter_eq_self.mpr]
  intro p _
  simp

theorem remCount_irrel (g : FileGraph) (order : List String) (u v : String)
    (hu : u ∉ g.map Prod.fst) :
    remCount g (order ++ [u]) v = remCount g order v := by
  induction g with
  | nil => rfl
  | cons p g' ih =>
    rw [List.map_cons] at hu
    have hp : p.1 ≠ u := fun h => hu (by simp [h])
    rw [remCount_cons, remCount_cons,
      ih (fun h => hu (List.mem_cons_of_mem _ h))]
    by_cases hmem : p.1 ∈ order
    · rw [if_pos hmem, if_pos (List.mem_append_left _ hmem)]
    · rw [if_neg hmem, if_neg (by
        rw [List.mem_append]
        push_neg
        exact ⟨hmem, by simpa using hp⟩)]

theorem adjOf_eq_of_mem (g : FileGraph)
    (hkeys : (g.map Prod.fst).Nodup) (u : String) (vs : List String)
    (h : (u, vs) ∈ g) : adjOf g u = vs := by
  induction g with
  | nil => simp at h
  | cons p g' ih =>
    rw [List.map_cons, List.nodup_cons] at hkeys
    rcases List.mem_cons.mp h with rfl | h'
    · unfold adjOf
      rw [List.find?_cons_of_pos _ (by simp)]
    · have hp : p.1 ≠ u := by
        intro heq
        exact hkeys.1 (heq ▸ List.mem_map_of_mem Prod.fst h')
      unfold adjOf
      rw [List.find?_cons_of_neg _ (by simpa using hp)]
      exact ih hkeys.2 h'

theorem adjOf_mem_graph (g : FileGraph) (u : String)
    (h : adjOf g u ≠ []) : (u, adjOf g u) ∈ g := by
  unfold adjOf at *
  cases hf : g.find? (fun p => p.1 = u) with
  | none => rw [hf] at h; exact absurd rfl h
  | some p =>
    dsimp only
    have hmem := List.mem_of_find?_eq_some hf
    have hpred := List.find?_some hf
    rw [decide_eq_true_eq] at hpred
    obtain ⟨p1, p2⟩ := p
    dsimp only at hpred ⊢
    subst hpred
    exact hmem

theorem adjOf_nodup (g : FileGraph) (hwf : GraphWF g) (u : String) :
    (adjOf g u).Nodup := by
  by_cases h : adjOf g u = []
  · rw [h]; exact List.nodup_nil
  · exact hwf.adj_nodup _ (adjOf_mem_graph g u h)

theorem mem_adjOf_isEdge (g : FileGraph) (u v : String)
    (h : v ∈ adjOf g u) : isEdge g u v := by
  have hne : adjOf g u ≠ [] := by
    intro heq
    rw [heq] at h
    simp at h
  exact ⟨adjOf g u, adjOf_mem_graph g u hne, h⟩

theorem remCount_snoc (g : FileGraph)
    (hkeys : (g.map Prod.fst).Nodup) (order : List String) (u : String)
    (hu : u ∉ order) (v : String) :
    remCount g order v =
      remCount g (order ++ [u]) v + (adjOf g u).count v := by
  induction g with
  | nil =>
    have : adjOf ([] : FileGraph) u = [] := rfl
    rw [this]
    rfl
  | cons p g' ih =>
    rw [List.map_cons, List.nodup_cons] at hkeys
    by_cases hp : p.1 = u
    · have hadj : adjOf (p :: g') u = p.2 := by
        unfold adjOf
        rw [List.find?_cons_of_pos _ (by simpa using hp)]
      have hunotin : u ∉ g'.map Prod.fst := hp ▸ hkeys.1
      rw [remCount_cons, remCount_cons, hadj, hp,
        if_neg hu, if_pos (List.mem_append_right _ (List.mem_singleton.mpr rfl)),
        remCount_irrel g' order u v hunotin]
      ring
    · have hadj : adjOf (p :: g') u = adjOf g' u := by
        unfold adjOf
        rw [List.find?_cons_of_neg _ (by simpa using hp)]
      rw [remCount_cons, remCount_cons, hadj, ih hkeys.2]
      by_cases hmem : p.1 ∈ order
      · rw [if_pos hmem, if_pos (List.mem_append_left _ hmem)]
        ring
      · rw [if_neg hmem, if_neg (by
          rw [List.mem_append]
          push_neg
          exact ⟨hmem, by simpa using hp⟩)]
        ring

theorem remCount_zero_edge (g : FileGraph) (order : List String)
    (a v : String) (h : remCount g order v = 0) (he : isEdge g a v) :
    a ∈ order := by
  obtain ⟨vs, hmem, hv⟩ := he
  by_contra ha
  have : 0 < remCount g order v := by
    clear h
    induction g with
    | nil => simp at hmem
    | cons p g' ih =>
      rw [remCount_cons]
      rcases List.mem_cons.mp hmem with rfl | h'
      · rw [if_neg (by simpa using ha)]
        have h2 : 0 < (a, vs).2.count v := List.count_pos_iff.mpr hv
        omega
      · have := ih h'
        omega
  omega

theorem nodesOf_nodup (g : FileGraph) : (nodesOf g).Nodup :=
  List.nodup_dedup _

theorem mem_nodesOf_key (g : FileGraph) (u : String) (vs : List String)
    (h : (u, vs) ∈ g) : u ∈ nodesOf g := by
  unfold nodesOf
  rw [List.mem_dedup, List.mem_append]
  exact Or.inl (List.mem_map_of_mem Prod.fst h)

theorem mem_nodesOf_val (g : FileGraph) (u v : String) (vs : List String)
    (h : (u, vs) ∈ g) (hv : v ∈ vs) : v ∈ nodesOf g := by
  unfold nodesOf
  rw [List.mem_dedup, List.mem_append]
  right
  rw [List.mem_flatMap]
  exact ⟨(u, vs), h, hv⟩

theorem mem_adjOf_nodes (g : FileGraph) (u v : String)
    (h : v ∈ adjOf g u) : v ∈ nodesOf g := by
  have hne : adjOf g u ≠ [] := by
    intro heq
    rw [heq] at h
    simp at h
  exact mem_nodesOf_val g u v _ (adjOf_mem_graph g u hne) h

/-- Loop invariant of Kahn's algorithm in `topological_sort`:
`indeg` counts the edges from not-yet-popped keys, popped and queued
nodes are distinct with zero in-degree, the emitted order respects all
edges into it, and every zero-degree node has been seen. -/
structure KahnInv (g : FileGraph) (q : List String) (indeg : String → Int)
    (order : List String) : Prop where
  hdeg : ∀ v, indeg v = (remCount g order v : Int)
  hnodup : (order ++ q).Nodup
  hzero : ∀ v ∈ order ++ q, indeg v = 0
  horder : ∀ u v, isEdge g u v → v ∈ order →
    u ∈ order ∧ order.indexOf u < order.indexOf v
  hsub : ∀ v ∈ order ++ q, v ∈ nodesOf g
  hzmem : ∀ v ∈ nodesOf g, indeg v = 0 → v ∈ order ++ q

theorem kahnInv_init (g : FileGraph) :
    KahnInv g ((nodesOf g).filter (fun u => decide (indeg0 g u = 0)))
      (indeg0 g) [] := by
  refine ⟨?_, ?_, ?_, ?_, ?_, ?_⟩
  · intro v
    rw [indeg0_eval, remCount_nil_order]
  · rw [List.nil_append]
    exact (nodesOf_nodup g).filter _
  · intro v hv
    rw [List.nil_append, List.mem_filter, decide_eq_true_eq] at hv
    exact hv.2
  · intro u v _ hv
    simp at hv
  · intro v hv
    rw [List.nil_append, List.mem_filter] at hv
    exact hv.1
  · intro v hv hz
    rw [List.nil_append, List.mem_filter, decide_eq_true_eq]
    exact ⟨hv, hz⟩

theorem count_nodup_ite (vs : List String) (v : String) (h : vs.Nodup) :
    (vs.count v : Int) = if v ∈ vs then 1 else 0 := by
  by_cases hv : v ∈ vs
  · rw [if_pos hv, List.count_eq_one_of_mem h hv]
    rfl
  · rw [if_neg hv, List.count_eq_zero_of_not_mem hv]
    rfl

theorem kahnInv_step (g : FileGraph) (hwf : GraphWF g) (u : String)
    (qrest : List String) (indeg : String → Int) (order : List String)
    (inv : KahnInv g (u :: qrest) indeg order) :
    KahnInv g (kahnStep indeg qrest (adjOf g u)).1
      (kahnStep indeg qrest (adjOf g u)).2 (order ++ [u]) := by
  obtain ⟨hq1, hdeg2⟩ :=
    kahnStep_spec (adjOf g u) indeg qrest (adjOf_nodup g hwf u)
  have hshape : order ++ u :: qrest = (order ++ [u]) ++ qrest := by
    rw [List.append_assoc]
    rfl
  have hnd := inv.hnodup
  rw [List.nodup_append] at hnd
  obtain ⟨hndo, hndq, hdisj⟩ := hnd
  have hu_no : u ∉ order := fun hin => hdisj hin (List.mem_cons_self _ _)
  have hindeg_u : indeg u = 0 :=
    inv.hzero u (List.mem_append_right _ (List.mem_cons_self _ _))
  have hrem_u : remCount g order u = 0 := by
    have h := inv.hdeg u
    rw [hindeg_u] at h
    exact_mod_cast h.symm
  have hcnt : ∀ v, ((adjOf g u).count v : Int) =
      if v ∈ adjOf g u then 1 else 0 :=
    fun v => count_nodup_ite _ v (adjOf_nodup g hwf u)
  have hsnoc : ∀ v, (remCount g order v : Int) =
      (remCount g (order ++ [u]) v : Int) + ((adjOf g u).count v : Int) := by
    intro v
    have := remCount_snoc g hwf.keys_nodup order u hu_no v
    exact_mod_cast congrArg (Nat.cast : Nat → Int) this
  have hdeg' : ∀ v, (kahnStep indeg qrest (adjOf g u)).2 v =
      (remCount g (order ++ [u]) v : Int) := by
    intro v
    rw [hdeg2 v, inv.hdeg v, hsnoc v, hcnt v]
    by_cases hv : v ∈ adjOf g u
    · rw [if_pos hv]
      ring
    · rw [if_neg hv]
      ring
  have hold_zero : ∀ v ∈ order ++ u :: qrest,
      (kahnStep indeg qrest (adjOf g u)).2 v = 0 := by
    intro v hv
    have hz := inv.hzero v hv
    have hnot : v ∉ adjOf g u := by
      intro hmem
      have h1 := hsnoc v
      rw [hcnt v, if_pos hmem] at h1
      have h2 := inv.hdeg v
      rw [hz] at h2
      omega
    rw [hdeg2 v, if_neg hnot, hz]
    ring
  have hnew_mem : ∀ v ∈ (adjOf g u).filter (fun v => decide (indeg v = 1)),
      v ∈ adjOf g u ∧ indeg v = 1 := by
    intro v hv
    rw [List.mem_filter, decide_eq_true_eq] at hv
    exact hv
  have hnew_zero : ∀ v ∈ (adjOf g u).filter (fun v => decide (indeg v = 1)),
      (kahnStep indeg qrest (adjOf g u)).2 v = 0 := by
    intro v hv
    obtain ⟨hva, hv1⟩ := hnew_mem v hv
    rw [hdeg2 v, if_pos hva, hv1]
    ring
  have hnew_fresh : ∀ v ∈ (adjOf g u).filter (fun v => decide (indeg v = 1)),
      v ∉ order ++ u :: qrest := by
    intro v hv hmem
    have hz := inv.hzero v hmem
    have h1 := (hnew_mem v hv).2
    omega
  refine ⟨hdeg', ?_, ?_, ?_, ?_, ?_⟩
  · rw [hq1, ← List.append_assoc, ← hshape, List.nodup_append]
    refine ⟨inv.hnodup, ((adjOf_nodup g hwf u).filter _), ?_⟩
    intro a ha hb
    exact hnew_fresh a hb ha
  · intro v hv
    rw [hq1, ← List.append_assoc, ← hshape, List.mem_append] at hv
    rcases hv with hv | hv
    · exact hold_zero v hv
    · exact hnew_zero v hv
  · intro a b hab hb
    rw [List.mem_append] at hb
    rcases hb with hb | hb
    · obtain ⟨ha, hidx⟩ := inv.horder a b hab hb
      refine ⟨List.mem_append_left _ ha, ?_⟩
      rw [List.indexOf_append_of_mem ha, List.indexOf_append_of_mem hb]
      exact hidx
    · rw [List.mem_singleton] at hb
      subst hb
      have ha : a ∈ order := remCount_zero_edge g order a b hrem_u hab
      refine ⟨List.mem_append_left _ ha, ?_⟩
      rw [List.indexOf_append_of_mem ha,
        List.indexOf_append_of_not_mem hu_no]
      have : order.indexOf a < order.length :=
        List.indexOf_lt_length.mpr ha
      simp only [List.indexOf_cons_self]
      omega
  · intro v hv
    rw [hq1, ← List.append_assoc, ← hshape, List.mem_append] at hv
    rcases hv with hv | hv
    · exact inv.hsub v hv
    · exact mem_adjOf_nodes g u v (hnew_mem v hv).1
  · intro v hv hz
    rw [hdeg2 v] at hz
    by_cases hva : v ∈ adjOf g u
    · rw [if_pos hva] at hz
      have hv1 : indeg v = 1 := by omega
      rw [hq1]
      refine List.mem_append_right _ (List.mem_append_right _ ?_)
      rw [List.mem_filter, decide_eq_true_eq]
      exact ⟨hva, hv1⟩
    · rw [if_neg hva] at hz
      have := inv.hzmem v hv (by omega)
      rw [hshape, List.mem_append] at this
      rw [hq1, List.mem_append]
      rcases this with h | h
      · exact Or.inl h
      · exact Or.inr (List.mem_append_left _ h)

theorem kahnLoop_inv (g : FileGraph) (hwf : GraphWF g) :
    ∀ (fuel : Nat) (q : List String) (indeg : String → Int)
      (order : List String),
      KahnInv g q indeg order →
      (nodesOf g).length < fuel + order.length →
      ∃ indeg', KahnInv g [] indeg' (kahnLoop g fuel q indeg order) := by
  intro fuel
  induction fuel with
  | zero =>
    intro q indeg order inv hlen
    exfalso
    have hsub : (order ++ q) ⊆ nodesOf g := fun v hv => inv.hsub v hv
    have hle : (order ++ q).length ≤ (nodesOf g).length :=
      (inv.hnodup.subperm hsub).length_le
    rw [List.length_append] at hle
    omega
  | succ fuel ih =>
    intro q indeg order inv hlen
    cases q with
    | nil => exact ⟨indeg, inv⟩
    | cons u qrest =>
      have hstep := kahnInv_step g hwf u qrest indeg order inv
      have hres : kahnLoop g (fuel + 1) (u :: qrest) indeg order =
          kahnLoop g fuel (kahnStep indeg qrest (adjOf g u)).1
            (kahnStep indeg qrest (adjOf g u)).2 (order ++ [u]) := rfl
      rw [hres]
      apply ih _ _ _ hstep
      rw [List.length_append, List.length_singleton]
      omega

/-- Success of `topological_sort` together with its loop invariant. -/
theorem toposort_success_inv (g : FileGraph) (hwf : GraphWF g)
    (order : List String) (h : (topological_sort g).1 = some order) :
    order.length = (nodesOf g).length ∧
    ∃ indeg', KahnInv g [] indeg' order := by
  unfold topological_sort at h
  dsimp only at h
  by_cases hc : (kahnLoop g ((nodesOf g).length + 1)
      ((nodesOf g).filter (fun u => decide (indeg0 g u = 0)))
      (indeg0 g) []).length = (nodesOf g).length
  · rw [if_pos hc] at h
    dsimp only at h
    obtain ⟨indeg', hinv⟩ := kahnLoop_inv g hwf ((nodesOf g).length + 1)
      _ _ [] (kahnInv_init g) (by simp)
    rw [Option.some_inj] at h
    subst h
    exact ⟨hc, indeg', hinv⟩
  · rw [if_neg hc] at h
    simp at h

/-- On success the order covers every node. -/
theorem toposort_success_perm (g : FileGraph) (hwf : GraphWF g)
    (order : List String) (h : (topological_sort g).1 = some order) :
    order.Perm (nodesOf g) := by
  obtain ⟨hlen, indeg', hinv⟩ := toposort_success_inv g hwf order h
  have hnodup : order.Nodup := by
    have := hinv.hnodup
    rwa [List.append_nil] at this
  have hsub : order ⊆ nodesOf g := by
    intro v hv
    exact hinv.hsub v (by rwa [List.append_nil])
  exact (hnodup.subperm hsub).perm_of_length_le (by omega)

/-- The edge-respecting property of a successful `topological_sort`. -/
theorem toposort_respects_edges (g : FileGraph) (hwf : GraphWF g)
    (order : List String) (h : (topological_sort g).1 = some order)
    (u v : String) (huv : isEdge g u v) :
    u ∈ order ∧ v ∈ order ∧ order.indexOf u < order.indexOf v := by
  obtain ⟨hlen, indeg', hinv⟩ := toposort_success_inv g hwf order h
  have hperm := toposort_success_perm g hwf order h
  have hvnodes : v ∈ nodesOf g := by
    obtain ⟨vs, hmem, hv⟩ := huv
    exact mem_nodesOf_val g u v vs hmem hv
  have hvorder : v ∈ order := hperm.mem_iff.mpr hvnodes
  obtain ⟨hu, hidx⟩ := hinv.horder u v huv hvorder
  exact ⟨hu, hvorder, hidx⟩

/-! ## DependencyGraph (models/dependency_graph.py)

`_nodes` is the insertion-ordered dict `program_id → dependencies`;
`_reverse_dependencies` is maintained by `add_node` and, when every
`program_id` is added once, coincides with the derived reverse map used
here.  Well-formedness (unique ids, duplicate-free dependency lists,
dependencies registered as nodes — all guaranteed by `add_node`) is
explicit. -/

abbrev ProgGraph := List (String × List String)

structure ProgWF (G : ProgGraph) : Prop where
  keys_nodup : (G.map Prod.fst).Nodup
  deps_nodup : ∀ p ∈ G, p.2.Nodup
  deps_closed : ∀ p ∈ G, ∀ d ∈ p.2, d ∈ G.map Prod.fst

/-- `self._reverse_dependencies[d]`: the ids that depend on `d`. -/
def revDeps (G : ProgGraph) (d : String) : List String :=
  (G.filter (fun p => decide (d ∈ p.2))).map Prod.fst

/-- Python string comparison (code-point lexicographic). -/
def charListLe : List Char → List Char → Bool
  | [], _ => true
  | _ :: _, [] => false
  | a :: as, b :: bs => if a = b then charListLe as bs else decide (a < b)

def strLeB (a b : String) : Bool := charListLe a.toList b.toList

/-- Insertion sort: `queue.sort()` (equal to Python's sort on the
duplicate-free queues that occur, where the sorted order is unique). -/
def insertSorted (a : String) : List String → List String
  | [] => [a]
  | b :: r => if strLeB a b then a :: b :: r else b :: insertSorted a r

def sortStrings : List String → List String
  | [] => []
  | a :: r => insertSorted a (sortStrings r)

/-- DFS state of `detect_circular_dependencies`: `visited`,
`recursion_stack` (both Python sets) and the collected cycles. -/
structure DccSt where
  visited : List String
  stack_set : List String
  cycles : List (List String)

/-- The recursive `dfs(node_id, path)` of `detect_circular_dependencies`
(dependency_graph.py lines 114-130). -/
def dccVisit (G : ProgGraph) : Nat → String → List String → DccSt → DccSt
  | 0, _, _, st => st
  | fuel + 1, node, path, st =>
    let st1 : DccSt := { st with visited := node :: st.visited,
                                 stack_set := node :: st.stack_set }
    let path1 := path ++ [node]
    let st2 := (adjOf G node).foldl (fun s dep =>
      if dep ∉ s.visited then dccVisit G fuel dep path1 s
      else if dep ∈ s.stack_set then
        { s with cycles :=
            s.cycles ++ [path1.drop (path1.indexOf dep) ++ [dep]] }
      else s) st1
    { st2 with stack_set := st2.stack_set.erase node }

/-- `DependencyGraph.detect_circular_dependencies` (lines 103-136). -/
def detectCircularDependencies (G : ProgGraph) : List (List String) :=
  ((G.map Prod.fst).foldl (fun st node =>
    if node ∉ st.visited then
      dccVisit G (G.length + (G.flatMap Prod.snd).length + 1) node [] st
    else st) ⟨[], [], []⟩).cycles

/-- The initial `in_degree` dict (lines 158-163): each node's degree is
its number of dependencies that are registered nodes. -/
def convInDegree (G : ProgGraph) : String → Int :=
  G.foldl (fun f p =>
    p.2.foldl (fun f dep =>
      if (G.map Prod.fst).contains dep then updF f p.1 (f p.1 + 1) else f) f)
    (fun _ => 0)

/-- The `while queue:` loop of `get_conversion_order` (lines 168-178):
sort the queue, pop its minimum, decrement each dependent's in-degree via
the reverse map, enqueue those reaching zero. -/
def convLoop (G : ProgGraph) :
    Nat → List String → (String → Int) → List String → List String
  | 0, _, _, order => order
  | fuel + 1, queue, indeg, order =>
    match sortStrings queue with
    | [] => order
    | node :: qrest =>
      let st := kahnStep indeg qrest (revDeps G node)
      convLoop G fuel st.1 st.2 (order ++ [node])

/-- `DependencyGraph.get_conversion_order` (lines 138-184): `none` models
the `ValueError` raised on circular dependencies. -/
def getConversionOrder (G : ProgGraph) : Option (List String) :=
  if detectCircularDependencies G = [] then
    some (convLoop G (G.length + 1)
      ((G.map Prod.fst).filter (fun id => decide (convInDegree G id = 0)))
      (convInDegree G) [])
  else none

/-- Unpopped-dependency count of a node. -/
def remDeps (G : ProgGraph) (order : List String) (u : String) : Nat :=
  ((adjOf G u).filter (fun d => decide (d ∉ order))).length

theorem insertSorted_perm (a : String) (l : List String) :
    (insertSorted a l).Perm (a :: l) := by
  induction l with
  | nil => exact List.Perm.refl _
  | cons b r ih =>
    unfold insertSorted
    by_cases h : strLeB a b
    · rw [if_pos h]
    · rw [if_neg h]
      exact (ih.cons b).trans (List.Perm.swap a b r)

theorem sortStrings_perm (l : List String) : (sortStrings l).Perm l := by
  induction l with
  | nil => exact List.Perm.refl _
  | cons a r ih =>
    unfold sortStrings
    exact (insertSorted_perm a (sortStrings r)).trans (ih.cons a)

theorem revDeps_nodup (G : ProgGraph)
    (hkeys : (G.map Prod.fst).Nodup) (d : String) : (revDeps G d).Nodup :=
  hkeys.sublist ((List.filter_sublist G).map Prod.fst)

theorem mem_revDeps_iff (G : ProgGraph) (d w : String) :
    w ∈ revDeps G d ↔ isEdge G w d := by
  unfold revDeps isEdge
  constructor
  · intro h
    rw [List.mem_map] at h
    obtain ⟨p, hp, hw⟩ := h
    rw [List.mem_filter, decide_eq_true_eq] at hp
    refine ⟨p.2, ?_, hp.2⟩
    rw [← hw]
    exact hp.1
  · intro ⟨ds, hmem, hd⟩
    rw [List.mem_map]
    refine ⟨(w, ds), ?_, rfl⟩
    rw [List.mem_filter, decide_eq_true_eq]
    exact ⟨hmem, hd⟩

theorem revDeps_sub_keys (G : ProgGraph) (d w : String)
    (h : w ∈ revDeps G d) : w ∈ G.map Prod.fst := by
  unfold revDeps at h
  rw [List.mem_map] at h
  obtain ⟨p, hp, hw⟩ := h
  rw [List.mem_filter] at hp
  rw [← hw]
  exact List.mem_map_of_mem Prod.fst hp.1

theorem isEdge_iff_adjOf (G : ProgGraph)
    (hkeys : (G.map Prod.fst).Nodup) (u v : String) :
    isEdge G u v ↔ v ∈ adjOf G u := by
  constructor
  · intro ⟨vs, hmem, hv⟩
    rw [adjOf_eq_of_mem G hkeys u vs hmem]
    exact hv
  · exact mem_adjOf_isEdge G u v

theorem inner_count_eval (c : String → Bool) (key : String)
    (ds : List String) :
    ∀ (f : String → Int) (x : String),
      (ds.foldl (fun f dep =>
        if c dep then updF f key (f key + 1) else f) f) x =
      f x + if x = key then (ds.countP c : Int) else 0 := by
  induction ds with
  | nil => intro f x; simp
  | cons d ds' ih =>
    intro f x
    rw [List.foldl_cons]
    by_cases hc : c d
    · rw [if_pos hc, ih]
      by_cases hx : x = key
      · subst hx
        rw [if_pos rfl, if_pos rfl, updF_self,
          List.countP_cons_of_pos _ _ hc]
        push_cast
        ring
      · rw [if_neg hx, if_neg hx, updF_ne _ _ _ _ hx]
    · rw [if_neg hc, ih, List.countP_cons_of_neg _ _ (by simpa using hc)]

theorem convInDegree_fold_eval (c : String → Bool) :
    ∀ (L : ProgGraph) (f : String → Int) (x : String),
      (L.foldl (fun f p => p.2.foldl (fun f dep =>
        if c dep then updF f p.1 (f p.1 + 1) else f) f) f) x =
      f x + ((L.filter (fun p => decide (p.1 = x))).map
        (fun p => (p.2.countP c : Int))).sum := by
  intro L
  induction L with
  | nil => intro f x; simp
  | cons p L' ih =>
    intro f x
    rw [List.foldl_cons, ih, inner_count_eval]
    by_cases hx : x = p.1
    · rw [if_pos hx, List.filter_cons_of_pos (by simp [hx]), List.map_cons,
        List.sum_cons]
      ring
    · rw [if_neg hx, List.filter_cons_of_neg (by
        simpa using fun h => hx h.symm)]
      ring

theorem filter_key_unique (G : ProgGraph)
    (hkeys : (G.map Prod.fst).Nodup) (u : String) (ds : List String)
    (h : (u, ds) ∈ G) :
    G.filter (fun p => decide (p.1 = u)) = [(u, ds)] := by
  induction G with
  | nil => simp at h
  | cons p G' ih =>
    rw [List.map_cons, List.nodup_cons] at hkeys
    rcases List.mem_cons.mp h with rfl | h'
    · rw [List.filter_cons_of_pos (by simp)]
      congr 1
      rw [List.filter_eq_nil_iff]
      intro q hq
      rw [decide_eq_true_eq]
      intro hqu
      have hq' := List.mem_map_of_mem Prod.fst hq
      rw [hqu] at hq'
      exact hkeys.1 hq'
    · have hp : p.1 ≠ u := by
        intro heq
        exact hkeys.1 (heq ▸ List.mem_map_of_mem Prod.fst h')
      rw [List.filter_cons_of_neg (by simpa using hp)]
      exact ih hkeys.2 h'

theorem convInDegree_key (G : ProgGraph) (hwf : ProgWF G)
    (u : String) (ds : List String) (h : (u, ds) ∈ G) :
    convInDegree G u = (ds.length : Int) := by
  unfold convInDegree
  rw [convInDegree_fold_eval, filter_key_unique G hwf.keys_nodup u ds h]
  have hcnt : ds.countP (fun d => (G.map Prod.fst).contains d) = ds.length := by
    apply List.countP_eq_length.mpr
    intro d hd
    have := hwf.deps_closed (u, ds) h d hd
    simpa using this
  simp [hcnt]

theorem remDeps_nil (G : ProgGraph) (u : String) :
    remDeps G [] u = (adjOf G u).length := by
  unfold remDeps
  congr 1
  rw [List.filter_eq_self.mpr]
  intro d _
  simp

theorem filter_snoc_count (node : String) (order : List String)
    (hnode : node ∉ order) :
    ∀ ds : List String, ds.Nodup →
      (ds.filter (fun d => decide (d ∉ order))).length =
      (ds.filter (fun d => decide (d ∉ order ++ [node]))).length +
        (if node ∈ ds then 1 else 0) := by
  intro ds
  induction ds with
  | nil => simp
  | cons d ds' ih =>
    intro hnd
    rw [List.nodup_cons] at hnd
    by_cases hd : d = node
    · subst hd
      rw [List.filter_cons_of_pos (by simpa using hnode),
        List.filter_cons_of_neg (by
          simp only [decide_eq_true_eq, not_not]
          exact List.mem_append_right _ (List.mem_singleton.mpr rfl)),
        if_pos (List.mem_cons_self _ _)]
      have hcong : ds'.filter (fun x => decide (x ∉ order ++ [d])) =
          ds'.filter (fun x => decide (x ∉ order)) := by
        apply List.filter_congr
        intro x hx
        have hxd : x ≠ d := fun h => hnd.1 (h ▸ hx)
        simp only [decide_eq_decide, List.mem_append, List.mem_singleton]
        constructor
        · intro h h2
          exact h (Or.inl h2)
        · intro h h2
          rcases h2 with h2 | h2
          · exact h h2
          · exact hxd h2
      rw [hcong, List.length_cons]
    · have hiff : (d ∉ order ++ [node]) ↔ (d ∉ order) := by
        rw [List.mem_append, List.mem_singleton]
        constructor
        · intro h h2
          exact h (Or.inl h2)
        · intro h h2
          rcases h2 with h2 | h2
          · exact h h2
          · exact hd h2
      have hmc : (if node ∈ d :: ds' then 1 else 0) =
          (if node ∈ ds' then 1 else 0) := by
        have heq : (node ∈ d :: ds') ↔ (node ∈ ds') := by
          rw [List.mem_cons]
          constructor
          · intro h
            rcases h with h | h
            · exact absurd h.symm hd
            · exact h
          · exact Or.inr
        simp only [heq]
      by_cases hmem : d ∈ order
      · rw [List.filter_cons_of_neg (by simpa using hmem),
          List.filter_cons_of_neg (by
            simp only [decide_eq_true_eq, not_not]
            exact List.mem_append_left _ hmem), hmc, ih hnd.2]
      · rw [List.filter_cons_of_pos (by simpa using hmem),
          List.filter_cons_of_pos (by
            simp only [decide_eq_true_eq]
            exact hiff.mpr hmem), hmc,
          List.length_cons, List.length_cons, ih hnd.2]
        omega

theorem remDeps_snoc (G : ProgGraph) (order : List String)
    (node u : String) (hnode : node ∉ order)
    (hnd : (adjOf G u).Nodup) :
    remDeps G order u =
      remDeps G (order ++ [node]) u +
        (if node ∈ adjOf G u then 1 else 0) := by
  unfold remDeps
  exact filter_snoc_count node order hnode (adjOf G u) hnd

theorem remDeps_zero (G : ProgGraph) (hkeys : (G.map Prod.fst).Nodup)
    (order : List String) (u v : String) (h : remDeps G order u = 0)
    (he : isEdge G u v) : v ∈ order := by
  have hv : v ∈ adjOf G u := (isEdge_iff_adjOf G hkeys u v).mp he
  unfold remDeps at h
  rw [List.length_eq_zero] at h
  by_contra hvo
  have : v ∈ (adjOf G u).filter (fun d => decide (d ∉ order)) := by
    rw [List.mem_filter, decide_eq_true_eq]
    exact ⟨hv, hvo⟩
  rw [h] at this
  simp at this

/-- Loop invariant of the `get_conversion_order` worklist: `indeg` counts
each key's not-yet-emitted registered dependencies, emitted and queued
ids are distinct with zero in-degree, every emitted id's dependencies are
emitted before it, and everything seen is a registered id. -/
structure ConvInv (G : ProgGraph) (queue : List String)
    (indeg : String → Int) (order : List String) : Prop where
  hdeg : ∀ p ∈ G, indeg p.1 = (remDeps G order p.1 : Int)
  hnodup : (order ++ queue).Nodup
  hzero : ∀ v ∈ order ++ queue, indeg v = 0
  horder : ∀ u v, isEdge G u v → u ∈ order →
    v ∈ order ∧ order.indexOf v < order.indexOf u
  hkeys : ∀ v ∈ order ++ queue, v ∈ G.map Prod.fst

theorem convInv_init (G : ProgGraph) (hwf : ProgWF G) :
    ConvInv G
      ((G.map Prod.fst).filter (fun id => decide (convInDegree G id = 0)))
      (convInDegree G) [] := by
  refine ⟨?_, ?_, ?_, ?_, ?_⟩
  · intro p hp
    rw [convInDegree_key G hwf p.1 p.2 hp, remDeps_nil,
      adjOf_eq_of_mem G hwf.keys_nodup p.1 p.2 hp]
  · rw [List.nil_append]
    exact hwf.keys_nodup.filter _
  · intro v hv
    rw [List.nil_append, List.mem_filter, decide_eq_true_eq] at hv
    exact hv.2
  · intro u v _ hu
    simp at hu
  · intro v hv
    rw [List.nil_append, List.mem_filter] at hv
    exact hv.1

theorem convInv_perm (G : ProgGraph) {queue queue' : List String}
    (h : queue.Perm queue') (indeg : String → Int) (order : List String)
    (inv : ConvInv G queue indeg order) : ConvInv G queue' indeg order := by
  have hmem : ∀ v, v ∈ order ++ queue' ↔ v ∈ order ++ queue := by
    intro v
    rw [List.mem_append, List.mem_append, h.mem_iff]
  refine ⟨inv.hdeg, ?_, ?_, inv.horder, ?_⟩
  · exact ((List.Perm.append_left order h).nodup_iff).mp inv.hnodup
  · intro v hv
    exact inv.hzero v ((hmem v).mp hv)
  · intro v hv
    exact inv.hkeys v ((hmem v).mp hv)

theorem convInv_step (G : ProgGraph) (hwf : ProgWF G) (node : String)
    (qrest : List String) (indeg : String → Int) (order : List String)
    (inv : ConvInv G (node :: qrest) indeg order) :
    ConvInv G (kahnStep indeg qrest (revDeps G node)).1
      (kahnStep indeg qrest (revDeps G node)).2 (order ++ [node]) := by
  obtain ⟨hq1, hdeg2⟩ := kahnStep_spec (revDeps G node) indeg qrest
    (revDeps_nodup G hwf.keys_nodup node)
  have hshape : order ++ node :: qrest = (order ++ [node]) ++ qrest := by
    rw [List.append_assoc]
    rfl
  have hnd := inv.hnodup
  rw [List.nodup_append] at hnd
  obtain ⟨hndo, hndq, hdisj⟩ := hnd
  have hnode_no : node ∉ order :=
    fun hin => hdisj hin (List.mem_cons_self _ _)
  have hindeg_node : indeg node = 0 :=
    inv.hzero node (List.mem_append_right _ (List.mem_cons_self _ _))
  have hnodekey : node ∈ G.map Prod.fst :=
    inv.hkeys node (List.mem_append_right _ (List.mem_cons_self _ _))
  have hrem_node : remDeps G order node = 0 := by
    obtain ⟨p, hp, hpfst⟩ := List.mem_map.mp hnodekey
    have h := inv.hdeg p hp
    rw [hpfst, hindeg_node] at h
    exact_mod_cast h.symm
  have hdeg' : ∀ p ∈ G, (kahnStep indeg qrest (revDeps G node)).2 p.1 =
      (remDeps G (order ++ [node]) p.1 : Int) := by
    intro p hp
    have hadj : adjOf G p.1 = p.2 :=
      adjOf_eq_of_mem G hwf.keys_nodup p.1 p.2 hp
    have hnd2 : (adjOf G p.1).Nodup := by
      rw [hadj]
      exact hwf.deps_nodup p hp
    have hsnoc := remDeps_snoc G order node p.1 hnode_no hnd2
    have hmemiff : p.1 ∈ revDeps G node ↔ node ∈ adjOf G p.1 :=
      (mem_revDeps_iff G node p.1).trans
        (isEdge_iff_adjOf G hwf.keys_nodup p.1 node)
    rw [hdeg2, inv.hdeg p hp]
    by_cases hm : node ∈ adjOf G p.1
    · rw [if_pos (hmemiff.mpr hm), hsnoc, if_pos hm]
      push_cast
      ring
    · rw [if_neg (fun h => hm (hmemiff.mp h)), hsnoc, if_neg hm]
      push_cast
      ring
  have hold_zero : ∀ v ∈ order ++ node :: qrest,
      (kahnStep indeg qrest (revDeps G node)).2 v = 0 := by
    intro v hv
    have hz := inv.hzero v hv
    have hnot : v ∉ revDeps G node := by
      intro hmem
      have he : isEdge G v node := (mem_revDeps_iff G node v).mp hmem
      obtain ⟨ds, hds, hdn⟩ := he
      have h := inv.hdeg (v, ds) hds
      rw [hz] at h
      have hrem : remDeps G order v = 0 := by exact_mod_cast h.symm
      exact hnode_no
        (remDeps_zero G hwf.keys_nodup order v node hrem ⟨ds, hds, hdn⟩)
    rw [hdeg2 v, if_neg hnot, hz]
    ring
  have hnew_mem : ∀ v ∈ (revDeps G node).filter
      (fun v => decide (indeg v = 1)),
      v ∈ revDeps G node ∧ indeg v = 1 := by
    intro v hv
    rw [List.mem_filter, decide_eq_true_eq] at hv
    exact hv
  have hnew_zero : ∀ v ∈ (revDeps G node).filter
      (fun v => decide (indeg v = 1)),
      (kahnStep indeg qrest (revDeps G node)).2 v = 0 := by
    intro v hv
    obtain ⟨hva, hv1⟩ := hnew_mem v hv
    rw [hdeg2 v, if_pos hva, hv1]
    ring
  have hnew_fresh : ∀ v ∈ (revDeps G node).filter
      (fun v => decide (indeg v = 1)),
      v ∉ order ++ node :: qrest := by
    intro v hv hmem
    have hz := inv.hzero v hmem
    have h1 := (hnew_mem v hv).2
    omega
  refine ⟨hdeg', ?_, ?_, ?_, ?_⟩
  · rw [hq1, ← List.append_assoc, ← hshape, List.nodup_append]
    refine ⟨inv.hnodup,
      ((revDeps_nodup G hwf.keys_nodup node).filter _), ?_⟩
    intro a ha hb
    exact hnew_fresh a hb ha
  · intro v hv
    rw [hq1, ← List.append_assoc, ← hshape, List.mem_append] at hv
    rcases hv with hv | hv
    · exact hold_zero v hv
    · exact hnew_zero v hv
  · intro a b hab ha
    rw [List.mem_append] at ha
    rcases ha with ha | ha
    · obtain ⟨hb, hidx⟩ := inv.horder a b hab ha
      refine ⟨List.mem_append_left _ hb, ?_⟩
      rw [List.indexOf_append_of_mem hb, List.indexOf_append_of_mem ha]
      exact hidx
    · rw [List.mem_singleton] at ha
      subst ha
      have hb : b ∈ order :=
        remDeps_zero G hwf.keys_nodup order a b hrem_node hab
      refine ⟨List.mem_append_left _ hb, ?_⟩
      rw [List.indexOf_append_of_mem hb,
        List.indexOf_append_of_not_mem hnode_no]
      have : order.indexOf b < order.length :=
        List.indexOf_lt_length.mpr hb
      simp only [List.indexOf_cons_self]
      omega
  · intro v hv
    rw [hq1, ← List.append_assoc, ← hshape, List.mem_append] at hv
    rcases hv with hv | hv
    · exact inv.hkeys v hv
    · exact revDeps_sub_keys G node v (hnew_mem v hv).1

theorem convLoop_succ (G : ProgGraph) (fuel : Nat) (queue : List String)
    (indeg : String → Int) (order : List String) :
    convLoop G (fuel + 1) queue indeg order =
      match sortStrings queue with
      | [] => order
      | node :: qrest =>
        convLoop G fuel (kahnStep indeg qrest (revDeps G node)).1
          (kahnStep indeg qrest (revDeps G node)).2 (order ++ [node]) :=
  rfl

theorem convLoop_inv (G : ProgGraph) (hwf : ProgWF G) :
    ∀ (fuel : Nat) (queue : List String) (indeg : String → Int)
      (order : List String),
      ConvInv G queue indeg order →
      G.length < fuel + order.length →
      ∃ indeg', ConvInv G [] indeg' (convLoop G fuel queue indeg order) := by
  intro fuel
  induction fuel with
  | zero =>
    intro queue indeg order inv hlen
    exfalso
    have hsub : (order ++ queue) ⊆ G.map Prod.fst :=
      fun v hv => inv.hkeys v hv
    have hle : (order ++ queue).length ≤ (G.map Prod.fst).length :=
      (inv.hnodup.subperm hsub).length_le
    rw [List.length_append, List.length_map] at hle
    omega
  | succ fuel ih =>
    intro queue indeg order inv hlen
    cases hsort : sortStrings queue with
    | nil =>
      have hqnil : queue = [] := by
        have hperm := sortStrings_perm queue
        rw [hsort] at hperm
        exact hperm.symm.eq_nil
      subst hqnil
      exact ⟨indeg, inv⟩
    | cons node qrest =>
      have hperm : queue.Perm (node :: qrest) := by
        have h := sortStrings_perm queue
        rw [hsort] at h
        exact h.symm
      have inv' : ConvInv G (node :: qrest) indeg order :=
        convInv_perm G hperm indeg order inv
      have hstep := convInv_step G hwf node qrest indeg order inv'
      rw [convLoop_succ, hsort]
      dsimp only
      apply ih _ _ _ hstep
      rw [List.length_append, List.length_singleton]
      omega

/-- On success, `get_conversion_order` emits every emitted id's
dependencies before it. -/
theorem convOrder_respects_deps (G : ProgGraph) (hwf : ProgWF G)
    (order : List String) (h : getConversionOrder G = some order)
    (u v : String) (he : isEdge G u v) (hu : u ∈ order) :
    v ∈ order ∧ order.indexOf v < order.indexOf u := by
  unfold getConversionOrder at h
  by_cases hc : detectCircularDependencies G = []
  · rw [if_pos hc, Option.some_inj] at h
    obtain ⟨indeg', hinv⟩ := convLoop_inv G hwf (G.length + 1) _ _ []
      (convInv_init G hwf) (by simp)
    rw [h] at hinv
    exact hinv.horder u v he hu
  · rw [if_neg hc] at h
    simp at h

/-- C1: For every dependency graph on which `topological_sort` succeeds
and every edge `u→v`, `u` appears strictly before `v` in the returned
order, as claimed.  For `get_conversion_order` the claimed direction is
reversed (corrected): on success, every emitted program's registered
dependency `v` appears strictly before it, i.e. `order(v) < order(u)`
for the edge `u→v` given by `u` listing `v` among its dependencies. -/
theorem C1_topological_orders (g : FileGraph) (G : ProgGraph)
    (hg : GraphWF g) (hG : ProgWF G) (ord1 ord2 : List String)
    (h1 : (topological_sort g).1 = some ord1)
    (h2 : getConversionOrder G = some ord2) :
    (∀ u v, isEdge g u v →
      u ∈ ord1 ∧ v ∈ ord1 ∧ ord1.indexOf u < ord1.indexOf v) ∧
    (∀ u v, isEdge G u v → u ∈ ord2 →
      v ∈ ord2 ∧ ord2.indexOf v < ord2.indexOf u) := by
  constructor
  · intro u v huv
    exact toposort_respects_edges g hg ord1 h1 u v huv
  · intro u v huv hu
    exact convOrder_respects_deps G hG ord2 h2 u v huv hu

/-- C1 counterexample: on the two-program graph where `A` depends on `B`,
`get_conversion_order` succeeds with order `["B", "A"]`, so for the edge
`A→B` the position of `A` is NOT strictly less than the position of `B`,
refuting the claimed direction for `get_conversion_order` (the dependency
is emitted first). -/
theorem C1_counterexample :
    getConversionOrder [("A", ["B"]), ("B", [])] = some ["B", "A"] ∧
    isEdge [("A", ["B"]), ("B", [])] "A" "B" ∧
    ¬ (["B", "A"].indexOf "A" < ["B", "A"].indexOf "B") :=
  ⟨by decide, ⟨["B"], by decide, by decide⟩, by decide⟩

/-- C1 witness: both well-formedness and success hypotheses hold on
concrete two-node graphs, and the theorem applies. -/
theorem C1_witness :
    GraphWF [("a", ["b"]), ("b", [])] ∧
    ProgWF [("A", ["B"]), ("B", [])] ∧
    (topological_sort [("a", ["b"]), ("b", [])]).1 = some ["a", "b"] ∧
    getConversionOrder [("A", ["B"]), ("B", [])] = some ["B", "A"] ∧
    ((∀ u v, isEdge [("a", ["b"]), ("b", [])] u v →
        u ∈ ["a", "b"] ∧ v ∈ ["a", "b"] ∧
          ["a", "b"].indexOf u < ["a", "b"].indexOf v) ∧
      (∀ u v, isEdge [("A", ["B"]), ("B", [])] u v → u ∈ ["B", "A"] →
        v ∈ ["B", "A"] ∧ ["B", "A"].indexOf v < ["B", "A"].indexOf u)) :=
  ⟨⟨by decide, by decide⟩, ⟨by decide, by decide, by decide⟩,
    by decide, by decide,
    C1_topological_orders [("a", ["b"]), ("b", [])]
      [("A", ["B"]), ("B", [])] ⟨by decide, by decide⟩
      ⟨by decide, by decide, by decide⟩ ["a", "b"] ["B", "A"]
      (by decide) (by decide)⟩

/-! ## C3: find_cycles versus topological_sort -/

/-- Numeric color rank (white 0, gray 1, black 2); colors only increase
during the DFS. -/
def cOrd : Color → Nat
  | Color.white => 0
  | Color.gray => 1
  | Color.black => 2

/-- Number of white nodes of the graph in a DFS state. -/
def wcount (g : FileGraph) (st : DfsSt) : Nat :=
  (nodesOf g).countP (fun v => decide (st.color v = Color.white))

/-- A genuine directed cycle: at least two entries, consecutive entries
are edges, and the first entry equals the last. -/
def RealCycle (g : FileGraph) (c : List String) : Prop :=
  2 ≤ c.length ∧ List.Chain' (fun a b => isEdge g a b) c ∧
    c.head? = c.getLast?

/-- Ghost invariant of the DFS: the black nodes, listed in blackening
order, respect every edge out of a black node (as long as no cycle has
been recorded). -/
def BlackInv (g : FileGraph) (st : DfsSt) : Prop :=
  ∃ done : List String, done.Nodup ∧
    (∀ v, st.color v = Color.black ↔ v ∈ done) ∧
    (st.cycles = [] → ∀ u v, isEdge g u v → u ∈ done →
      v ∈ done ∧ done.indexOf v < done.indexOf u)

/-- The body of the successor loop of `dfs` as a named function. -/
def dfsStep (g : FileGraph) (fuel : Nat) (stack1 : List String)
    (s : DfsSt) (v : String) : DfsSt :=
  match s.color v with
  | Color.white => dfsVisit g fuel v stack1 s
  | Color.gray =>
    if v ∈ stack1 then
      { s with cycles :=
          s.cycles ++ [stack1.drop (stack1.indexOf v) ++ [v]] }
    else s
  | Color.black => s

/-- First registered, not-yet-emitted predecessor of a node. -/
def predOf (g : FileGraph) (order : List String) (v : String) :
    Option String :=
  (g.find? (fun p => decide (p.1 ∉ order) && p.2.contains v)).map Prod.fst

/-- Iterated predecessor walk used to exhibit a cycle when Kahn's
algorithm leaves nodes unemitted. -/
def predIter (g : FileGraph) (order : List String) (v : String) :
    Nat → String
  | 0 => v
  | n + 1 =>
    match predOf g order (predIter g order v n) with
    | some u => u
    | none => v

/-- The walk `[f (i+k), …, f (i+1), f i]`. -/
def walkList (f : Nat → String) (i : Nat) : Nat → List String
  | 0 => [f i]
  | k + 1 => f (i + (k + 1)) :: walkList f i k

theorem cOrd_le_two (c : Color) : cOrd c ≤ 2 := by
  cases c <;> simp [cOrd]

theorem cOrd_two_iff (c : Color) : 2 ≤ cOrd c ↔ c = Color.black := by
  cases c <;> simp [cOrd]

theorem cOrd_zero_iff (c : Color) : cOrd c = 0 ↔ c = Color.white := by
  cases c <;> simp [cOrd]

theorem countP_imp_le (l : List String) (p q : String → Bool)
    (h : ∀ x ∈ l, p x = true → q x = true) : l.countP p ≤ l.countP q := by
  induction l with
  | nil => simp
  | cons x l' ih =>
    rw [List.countP_cons, List.countP_cons]
    have h1 := ih (fun y hy => h y (List.mem_cons_of_mem _ hy))
    by_cases hx : p x = true
    · rw [hx, h x (List.mem_cons_self _ _) hx]
      omega
    · rw [Bool.not_eq_true] at hx
      rw [hx]
      simp only [Bool.false_eq_true, if_false]
      have : (if q x = true then 1 else 0) ≤ 1 := by
        by_cases hq : q x = true <;> simp [hq]
      omega

theorem wcount_le (g : FileGraph) (st : DfsSt) :
    wcount g st ≤ (nodesOf g).length :=
  List.countP_le_length _

theorem wcount_mono (g : FileGraph) (a b : DfsSt)
    (h : ∀ v, cOrd (a.color v) ≤ cOrd (b.color v)) :
    wcount g b ≤ wcount g a := by
  unfold wcount
  apply countP_imp_le
  intro x _ hx
  rw [decide_eq_true_eq] at hx
  rw [decide_eq_true_eq]
  have hb : cOrd (b.color x) = 0 := by rw [hx]; rfl
  have := h x
  rw [← cOrd_zero_iff]
  omega

theorem countP_updF_nonwhite (l : List String) (hnd : l.Nodup) (u : String)
    (hu : u ∈ l) (color : String → Color) (hw : color u = Color.white)
    (c : Color) (hc : c ≠ Color.white) :
    l.countP (fun v => decide (updF color u c v = Color.white)) + 1 =
      l.countP (fun v => decide (color v = Color.white)) := by
  induction l with
  | nil => simp at hu
  | cons x l' ih =>
    rw [List.nodup_cons] at hnd
    rw [List.countP_cons, List.countP_cons]
    rcases List.mem_cons.mp hu with rfl | hu'
    · have e1 : (decide (updF color u c u = Color.white)) = false := by
        simp [updF_self, hc]
      have e2 : (decide (color u = Color.white)) = true := by
        simp [hw]
      rw [e1, e2]
      have hcong : l'.countP
          (fun v => decide (updF color u c v = Color.white)) =
          l'.countP (fun v => decide (color v = Color.white)) :=
        List.countP_congr (fun v hv => by
          rw [updF_ne _ _ _ _ (fun h => hnd.1 (by rw [← h]; exact hv))])
      rw [hcong]
      simp
    · have hxu : x ≠ u := fun h => hnd.1 (h ▸ hu')
      have e1 : (decide (updF color u c x = Color.white)) =
          (decide (color x = Color.white)) := by
        rw [updF_ne _ _ _ _ hxu]
      rw [e1]
      have := ih hnd.2 hu'
      omega

theorem countP_updF_keep (l : List String) (u : String)
    (color : String → Color) (hnw : color u ≠ Color.white) (c : Color)
    (hc : c ≠ Color.white) :
    l.countP (fun v => decide (updF color u c v = Color.white)) =
      l.countP (fun v => decide (color v = Color.white)) :=
  List.countP_congr (fun v _ => by
    by_cases hv : v = u
    · subst hv
      simp [updF_self, hc, hnw]
    · rw [updF_ne _ _ _ _ hv])

theorem dfsVisit_succ_eq (g : FileGraph) (fuel : Nat) (u : String)
    (stack : List String) (st : DfsSt) :
    dfsVisit g (fuel + 1) u stack st =
      { ((adjOf g u).foldl (dfsStep g fuel (stack ++ [u]))
          { st with color := updF st.color u Color.gray }) with
        color := updF ((adjOf g u).foldl (dfsStep g fuel (stack ++ [u]))
          { st with color := updF st.color u Color.gray }).color u
          Color.black } :=
  rfl

theorem dfsStep_white (g : FileGraph) (fuel : Nat) (stack1 : List String)
    (s : DfsSt) (v : String) (h : s.color v = Color.white) :
    dfsStep g fuel stack1 s v = dfsVisit g fuel v stack1 s := by
  unfold dfsStep
  rw [h]

theorem dfsStep_gray (g : FileGraph) (fuel : Nat) (stack1 : List String)
    (s : DfsSt) (v : String) (h : s.color v = Color.gray) :
    dfsStep g fuel stack1 s v =
      if v ∈ stack1 then
        { s with cycles :=
            s.cycles ++ [stack1.drop (stack1.indexOf v) ++ [v]] }
      else s := by
  unfold dfsStep
  rw [h]

theorem dfsStep_black (g : FileGraph) (fuel : Nat) (stack1 : List String)
    (s : DfsSt) (v : String) (h : s.color v = Color.black) :
    dfsStep g fuel stack1 s v = s := by
  unfold dfsStep
  rw [h]

theorem walkList_length (f : Nat → String) (i : Nat) :
    ∀ k, (walkList f i k).length = k + 1 := by
  intro k
  induction k with
  | zero => rfl
  | succ k ih => rw [walkList, List.length_cons, ih]

theorem walkList_head (f : Nat → String) (i : Nat) :
    ∀ k, (walkList f i k).head? = some (f (i + k)) := by
  intro k
  cases k with
  | zero => rfl
  | succ k => rfl

theorem walkList_last (f : Nat → String) (i : Nat) :
    ∀ k, (walkList f i k).getLast? = some (f i) := by
  intro k
  induction k with
  | zero => rfl
  | succ k ih =>
    rw [walkList]
    cases hk : walkList f i k with
    | nil =>
      have := walkList_length f i k
      rw [hk] at this
      simp at this
    | cons x xs =>
      rw [List.getLast?_cons_cons, ← hk, ih]

theorem walkList_chain (R : String → String → Prop) (f : Nat → String)
    (i : Nat) (hf : ∀ n, R (f (n + 1)) (f n)) :
    ∀ k, List.Chain' R (walkList f i k) := by
  intro k
  induction k with
  | zero => exact List.chain'_singleton _
  | succ k ih =>
    rw [walkList]
    apply List.chain'_cons'.mpr
    refine ⟨?_, ih⟩
    intro y hy
    rw [walkList_head] at hy
    rw [Option.mem_def, Option.some_inj] at hy
    subst hy
    have : i + (k + 1) = (i + k) + 1 := by omega
    rw [this]
    exact hf (i + k)

theorem drop_indexOf_cycle (g : FileGraph) (v : String) :
    ∀ (l : List String), v ∈ l →
      List.Chain' (fun a b => isEdge g a b) l →
      (∀ b, l.getLast? = some b → isEdge g b v) →
      RealCycle g (l.drop (l.indexOf v) ++ [v]) := by
  intro l
  induction l with
  | nil =>
    intro h
    simp at h
  | cons a l' ih =>
    intro hv hch hlast
    by_cases hva : v = a
    · subst hva
      rw [List.indexOf_cons_self, List.drop_zero]
      refine ⟨?_, ?_, ?_⟩
      · rw [List.length_append, List.length_cons, List.length_singleton]
        omega
      · rw [List.chain'_append]
        refine ⟨hch, List.chain'_singleton _, ?_⟩
        intro x hx y hy
        rw [Option.mem_def] at hx hy
        have hyv : y = v := by
          have : ([v].head?) = some v := rfl
          rw [this, Option.some_inj] at hy
          exact hy.symm
        subst hyv
        exact hlast x hx
      · rw [List.getLast?_concat]
        rfl
    · have hv' : v ∈ l' := by
        rcases List.mem_cons.mp hv with h | h
        · exact absurd h hva
        · exact h
      have hne : l' ≠ [] := List.ne_nil_of_mem hv'
      have hidx : (a :: l').indexOf v = l'.indexOf v + 1 :=
        List.indexOf_cons_ne l' (fun h => hva h.symm)
      rw [hidx, List.drop_succ_cons]
      apply ih hv' hch.tail
      intro b hb
      apply hlast
      cases l' with
      | nil => exact absurd rfl hne
      | cons c l'' =>
        rw [List.getLast?_cons_cons]
        exact hb

theorem dfsVisit_sound (g : FileGraph) :
    ∀ (fuel : Nat) (u : String) (stack : List String) (st : DfsSt),
      List.Chain' (fun a b => isEdge g a b) (stack ++ [u]) →
      (∀ c ∈ st.cycles, RealCycle g c) →
      ∀ c ∈ (dfsVisit g fuel u stack st).cycles, RealCycle g c := by
  intro fuel
  induction fuel with
  | zero =>
    intro u stack st _ hsound
    exact hsound
  | succ fuel ih =>
    intro u stack st hchain hsound
    rw [dfsVisit_succ_eq]
    dsimp only
    have hgen : ∀ (vs : List String), (∀ v ∈ vs, isEdge g u v) →
        ∀ s : DfsSt, (∀ c ∈ s.cycles, RealCycle g c) →
        ∀ c ∈ (vs.foldl (dfsStep g fuel (stack ++ [u])) s).cycles,
          RealCycle g c := by
      intro vs
      induction vs with
      | nil =>
        intro _ s hs
        exact hs
      | cons v vs' ihv =>
        intro hedges s hs
        rw [List.foldl_cons]
        apply ihv (fun w hw => hedges w (List.mem_cons_of_mem _ hw))
        cases hcol : s.color v with
        | white =>
          rw [dfsStep_white g fuel _ s v hcol]
          have hch2 : List.Chain' (fun a b => isEdge g a b)
              ((stack ++ [u]) ++ [v]) := by
            rw [List.chain'_append]
            refine ⟨hchain, List.chain'_singleton _, ?_⟩
            intro x hx y hy
            rw [Option.mem_def, List.getLast?_concat,
              Option.some_inj] at hx
            rw [Option.mem_def] at hy
            have hyv : y = v := by
              have : ([v].head?) = some v := rfl
              rw [this, Option.some_inj] at hy
              exact hy.symm
            rw [← hx, hyv]
            exact hedges v (List.mem_cons_self _ _)
          exact ih v (stack ++ [u]) s hch2 hs
        | gray =>
          rw [dfsStep_gray g fuel _ s v hcol]
          by_cases hmem : v ∈ stack ++ [u]
          · rw [if_pos hmem]
            intro c hc
            rw [List.mem_append] at hc
            rcases hc with hc | hc
            · exact hs c hc
            · rw [List.mem_singleton] at hc
              subst hc
              apply drop_indexOf_cycle g v (stack ++ [u]) hmem hchain
              intro b hb
              rw [List.getLast?_concat, Option.some_inj] at hb
              rw [← hb]
              exact hedges v (List.mem_cons_self _ _)
          · rw [if_neg hmem]
            exact hs
        | black =>
          rw [dfsStep_black g fuel _ s v hcol]
          exact hs
    exact hgen (adjOf g u) (fun v hv => mem_adjOf_isEdge g u v hv) _ hsound

theorem findCyclesDfs_sound (g : FileGraph) :
    ∀ c ∈ findCyclesDfs g, RealCycle g c := by
  unfold findCyclesDfs
  have hgen : ∀ (ks : List String) (st : DfsSt),
      (∀ c ∈ st.cycles, RealCycle g c) →
      ∀ c ∈ (ks.foldl (fun st u =>
        if st.color u = Color.white then
          dfsVisit g ((nodesOf g).length + 1) u [] st
        else st) st).cycles, RealCycle g c := by
    intro ks
    induction ks with
    | nil =>
      intro st hs
      exact hs
    | cons k ks' ihk =>
      intro st hs
      rw [List.foldl_cons]
      apply ihk
      by_cases hw : st.color k = Color.white
      · rw [if_pos hw]
        refine dfsVisit_sound g _ k [] st ?_ hs
        rw [List.nil_append]
        exact List.chain'_singleton _
      · rw [if_neg hw]
        exact hs
  intro c hc
  refine hgen (g.map Prod.fst) _ ?_ c hc
  intro c2 hc2
  simp at hc2

/-- Precondition of a `dfs(u, stack)` call: gray nodes are exactly the
stack, `u` is white, colored nodes are nodes of the graph, and the
blackening-order ghost invariant holds. -/
structure DfsPre (g : FileGraph) (u : String) (stack : List String)
    (st : DfsSt) : Prop where
  hgray : ∀ v, st.color v = Color.gray ↔ v ∈ stack
  hnd : stack.Nodup
  hwhite : st.color u = Color.white
  hdom : ∀ v, st.color v ≠ Color.white → v ∈ nodesOf g
  hu : u ∈ nodesOf g
  hblack : BlackInv g st

/-- Postcondition of a `dfs(u, stack)` call: the gray set is restored to
the caller's stack, `u` is black, colors only increased, and the ghost
invariant still holds; cycles were only appended. -/
structure DfsPost (g : FileGraph) (u : String) (stack : List String)
    (st st' : DfsSt) : Prop where
  hgray : ∀ v, st'.color v = Color.gray ↔ v ∈ stack
  hblacku : st'.color u = Color.black
  hmono : ∀ v, cOrd (st.color v) ≤ cOrd (st'.color v)
  hdom : ∀ v, st'.color v ≠ Color.white → v ∈ nodesOf g
  hblack : BlackInv g st'
  hcyc : ∃ t, st'.cycles = st.cycles ++ t


theorem dfsVisit_succ_mk (g : FileGraph) (fuel : Nat) (u : String)
    (stack : List String) (st : DfsSt) :
    dfsVisit g (fuel + 1) u stack st =
      DfsSt.mk
        (updF ((adjOf g u).foldl (dfsStep g fuel (stack ++ [u]))
          (DfsSt.mk (updF st.color u Color.gray) st.cycles)).color u
          Color.black)
        ((adjOf g u).foldl (dfsStep g fuel (stack ++ [u]))
          (DfsSt.mk (updF st.color u Color.gray) st.cycles)).cycles :=
  rfl

theorem dfsVisit_post (g : FileGraph) (hwf : GraphWF g) :
    ∀ (fuel : Nat) (u : String) (stack : List String) (st : DfsSt),
      DfsPre g u stack st → wcount g st < fuel →
      DfsPost g u stack st (dfsVisit g fuel u stack st) := by
  intro fuel
  induction fuel with
  | zero =>
    intro u stack st hpre hfuel
    exact absurd hfuel (by omega)
  | succ fuel ih =>
    intro u stack st hpre hfuel
    have hu_stack : u ∉ stack := by
      intro h
      have := (hpre.hgray u).mpr h
      rw [hpre.hwhite] at this
      exact Color.noConfusion this
    have hnd1 : (stack ++ [u]).Nodup := by
      rw [List.nodup_append]
      refine ⟨hpre.hnd, List.nodup_singleton u, ?_⟩
      intro a ha hb
      rw [List.mem_singleton] at hb
      rw [hb] at ha
      exact hu_stack ha
    have hgray1 : ∀ v,
        updF st.color u Color.gray v = Color.gray ↔ v ∈ stack ++ [u] := by
      intro v
      by_cases hv : v = u
      · subst hv
        rw [updF_self]
        simp
      · rw [updF_ne _ _ _ _ hv, hpre.hgray v, List.mem_append,
          List.mem_singleton]
        constructor
        · exact Or.inl
        · intro h
          rcases h with h | h
          · exact h
          · exact absurd h hv
    have hdom1 : ∀ v,
        updF st.color u Color.gray v ≠ Color.white → v ∈ nodesOf g := by
      intro v hv
      by_cases hvu : v = u
      · rw [hvu]
        exact hpre.hu
      · rw [updF_ne _ _ _ _ hvu] at hv
        exact hpre.hdom v hv
    have hblack1 :
        BlackInv g (DfsSt.mk (updF st.color u Color.gray) st.cycles) := by
      obtain ⟨done, hdnd, hdiff, hdcond⟩ := hpre.hblack
      refine ⟨done, hdnd, ?_, hdcond⟩
      intro v
      dsimp only
      by_cases hvu : v = u
      · subst hvu
        rw [updF_self]
        constructor
        · intro h
          exact absurd h (by decide)
        · intro h
          have := (hdiff v).mpr h
          rw [hpre.hwhite] at this
          exact absurd this (by decide)
      · rw [updF_ne _ _ _ _ hvu]
        exact hdiff v
    have hw1 :
        wcount g (DfsSt.mk (updF st.color u Color.gray) st.cycles) + 1 =
          wcount g st :=
      countP_updF_nonwhite (nodesOf g) (nodesOf_nodup g) u hpre.hu
        st.color hpre.hwhite Color.gray (by decide)
    have hfuel1 :
        wcount g (DfsSt.mk (updF st.color u Color.gray) st.cycles) <
          fuel := by omega
    have hfold : ∀ (vs : List String), (∀ v ∈ vs, v ∈ adjOf g u) →
        ∀ s : DfsSt,
          (∀ v, s.color v = Color.gray ↔ v ∈ stack ++ [u]) →
          (∀ v, s.color v ≠ Color.white → v ∈ nodesOf g) →
          BlackInv g s →
          wcount g s < fuel →
          (∀ v, (vs.foldl (dfsStep g fuel (stack ++ [u])) s).color v =
            Color.gray ↔ v ∈ stack ++ [u]) ∧
          (∀ v, (vs.foldl (dfsStep g fuel (stack ++ [u])) s).color v ≠
            Color.white → v ∈ nodesOf g) ∧
          BlackInv g (vs.foldl (dfsStep g fuel (stack ++ [u])) s) ∧
          wcount g (vs.foldl (dfsStep g fuel (stack ++ [u])) s) < fuel ∧
          (∀ v, cOrd (s.color v) ≤
            cOrd ((vs.foldl (dfsStep g fuel (stack ++ [u])) s).color v)) ∧
          (∃ t, (vs.foldl (dfsStep g fuel (stack ++ [u])) s).cycles =
            s.cycles ++ t) ∧
          (∀ v ∈ vs, (vs.foldl (dfsStep g fuel (stack ++ [u])) s).cycles =
            [] → (vs.foldl (dfsStep g fuel (stack ++ [u])) s).color v =
            Color.black) := by
      intro vs
      induction vs with
      | nil =>
        intro _ s hA hB hC hD
        refine ⟨hA, hB, hC, hD, fun v => le_refl _, ⟨[], by simp⟩, ?_⟩
        intro v hv
        exact absurd hv (List.not_mem_nil v)
      | cons v vs' ihv =>
        intro hadj s hA hB hC hD
        rw [List.foldl_cons]
        have hvadj : v ∈ adjOf g u := hadj v (List.mem_cons_self _ _)
        have hstep : ∃ s' : DfsSt,
            dfsStep g fuel (stack ++ [u]) s v = s' ∧
            (∀ w, s'.color w = Color.gray ↔ w ∈ stack ++ [u]) ∧
            (∀ w, s'.color w ≠ Color.white → w ∈ nodesOf g) ∧
            BlackInv g s' ∧
            wcount g s' < fuel ∧
            (∀ w, cOrd (s.color w) ≤ cOrd (s'.color w)) ∧
            (∃ t, s'.cycles = s.cycles ++ t) ∧
            (s'.color v = Color.black ∨ s'.cycles ≠ []) := by
          cases hcol : s.color v with
          | white =>
            rw [dfsStep_white g fuel _ s v hcol]
            have hpost := ih v (stack ++ [u]) s
              ⟨hA, hnd1, hcol, hB, mem_adjOf_nodes g u v hvadj, hC⟩ hD
            refine ⟨_, rfl, hpost.hgray, hpost.hdom, hpost.hblack, ?_,
              hpost.hmono, hpost.hcyc, Or.inl hpost.hblacku⟩
            have := wcount_mono g s _ hpost.hmono
            omega
          | gray =>
            rw [dfsStep_gray g fuel _ s v hcol]
            have hmem : v ∈ stack ++ [u] := (hA v).mp hcol
            rw [if_pos hmem]
            refine ⟨_, rfl, hA, hB, ?_, hD, fun w => le_refl _,
              ⟨_, rfl⟩, Or.inr (by simp)⟩
            obtain ⟨done, hdnd, hdiff, _⟩ := hC
            refine ⟨done, hdnd, hdiff, ?_⟩
            intro h
            exact absurd h (by simp)
          | black =>
            rw [dfsStep_black g fuel _ s v hcol]
            exact ⟨s, rfl, hA, hB, hC, hD, fun w => le_refl _,
              ⟨[], by simp⟩, Or.inl hcol⟩
        obtain ⟨s', hs'eq, hA', hB', hC', hD', hE', hF', hV⟩ := hstep
        rw [hs'eq]
        obtain ⟨A2, B2, C2, D2, E2, F2, G2⟩ :=
          ihv (fun w hw => hadj w (List.mem_cons_of_mem _ hw)) s'
            hA' hB' hC' hD'
        refine ⟨A2, B2, C2, D2, ?_, ?_, ?_⟩
        · intro w
          exact le_trans (hE' w) (E2 w)
        · obtain ⟨t1, ht1⟩ := hF'
          obtain ⟨t2, ht2⟩ := F2
          exact ⟨t1 ++ t2, by rw [ht2, ht1, List.append_assoc]⟩
        · intro w hw hnil
          rcases List.mem_cons.mp hw with rfl | hw'
          · rcases hV with hV | hV
            · have h2 := E2 w
              rw [hV] at h2
              exact (cOrd_two_iff _).mp h2
            · exfalso
              obtain ⟨t2, ht2⟩ := F2
              rw [hnil] at ht2
              have := List.append_eq_nil.mp ht2.symm
              exact hV this.1
          · exact G2 w hw' hnil
    obtain ⟨A2, B2, C2, _, E2, F2, G2⟩ :=
      hfold (adjOf g u) (fun w hw => hw)
        (DfsSt.mk (updF st.color u Color.gray) st.cycles)
        hgray1 hdom1 hblack1 hfuel1
    have hcol : (dfsVisit g (fuel + 1) u stack st).color =
        updF ((adjOf g u).foldl (dfsStep g fuel (stack ++ [u]))
          (DfsSt.mk (updF st.color u Color.gray) st.cycles)).color u
          Color.black := rfl
    have hcycles : (dfsVisit g (fuel + 1) u stack st).cycles =
        ((adjOf g u).foldl (dfsStep g fuel (stack ++ [u]))
          (DfsSt.mk (updF st.color u Color.gray) st.cycles)).cycles := rfl
    generalize hst2 : (adjOf g u).foldl (dfsStep g fuel (stack ++ [u]))
        (DfsSt.mk (updF st.color u Color.gray) st.cycles) = st2
      at A2 B2 C2 E2 F2 G2 hcol hcycles
    dsimp only at E2 F2
    refine ⟨?_, ?_, ?_, ?_, ?_, ?_⟩
    · intro v
      rw [hcol]
      by_cases hvu : v = u
      · subst hvu
        rw [updF_self]
        constructor
        · intro h
          exact absurd h (by decide)
        · intro h
          exact absurd h hu_stack
      · rw [updF_ne _ _ _ _ hvu, A2 v, List.mem_append, List.mem_singleton]
        constructor
        · intro h
          rcases h with h | h
          · exact h
          · exact absurd h hvu
        · exact Or.inl
    · rw [hcol]
      exact updF_self _ _ _
    · intro v
      rw [hcol]
      by_cases hvu : v = u
      · subst hvu
        rw [updF_self]
        exact cOrd_le_two _
      · rw [updF_ne _ _ _ _ hvu]
        have h1 := E2 v
        rw [updF_ne _ _ _ _ hvu] at h1
        exact h1
    · intro v hv
      by_cases hvu : v = u
      · rw [hvu]
        exact hpre.hu
      · rw [hcol, updF_ne _ _ _ _ hvu] at hv
        exact B2 v hv
    · obtain ⟨done2, hnd2, hiff2, hcond2⟩ := C2
      have hu_gray2 : st2.color u = Color.gray :=
        (A2 u).mpr (List.mem_append_right _ (List.mem_singleton.mpr rfl))
      have hu_done : u ∉ done2 := by
        intro h
        have := (hiff2 u).mpr h
        rw [hu_gray2] at this
        exact Color.noConfusion this
      refine ⟨done2 ++ [u], ?_, ?_, ?_⟩
      · rw [List.nodup_append]
        refine ⟨hnd2, List.nodup_singleton u, ?_⟩
        intro a ha hb
        rw [List.mem_singleton] at hb
        rw [hb] at ha
        exact hu_done ha
      · intro v
        rw [hcol]
        by_cases hvu : v = u
        · subst hvu
          rw [updF_self]
          simp
        · rw [updF_ne _ _ _ _ hvu, hiff2 v, List.mem_append,
            List.mem_singleton]
          constructor
          · exact Or.inl
          · intro h
            rcases h with h | h
            · exact h
            · exact absurd h hvu
      · rw [hcycles]
        intro hnil a b hab ha
        rw [List.mem_append, List.mem_singleton] at ha
        rcases ha with ha | ha
        · obtain ⟨hb, hidx⟩ := hcond2 hnil a b hab ha
          refine ⟨List.mem_append_left _ hb, ?_⟩
          rw [List.indexOf_append_of_mem hb, List.indexOf_append_of_mem ha]
          exact hidx
        · subst ha
          have hbadj : b ∈ adjOf g a :=
            (isEdge_iff_adjOf g hwf.keys_nodup a b).mp hab
          have hbblack := G2 b hbadj hnil
          have hb2 : b ∈ done2 := (hiff2 b).mp hbblack
          refine ⟨List.mem_append_left _ hb2, ?_⟩
          rw [List.indexOf_append_of_mem hb2,
            List.indexOf_append_of_not_mem hu_done]
          have : done2.indexOf b < done2.length :=
            List.indexOf_lt_length.mpr hb2
          simp only [List.indexOf_cons_self]
          omega
    · rw [hcycles]
      exact F2

theorem findCyclesDfs_inv (g : FileGraph) (hwf : GraphWF g) :
    ∀ (ks : List String), (∀ u ∈ ks, u ∈ nodesOf g) →
    ∀ s : DfsSt,
      (∀ v, s.color v ≠ Color.gray) →
      (∀ v, s.color v ≠ Color.white → v ∈ nodesOf g) →
      BlackInv g s →
      (∀ v, (ks.foldl (fun st u =>
        if st.color u = Color.white then
          dfsVisit g ((nodesOf g).length + 1) u [] st
        else st) s).color v ≠ Color.gray) ∧
      BlackInv g (ks.foldl (fun st u =>
        if st.color u = Color.white then
          dfsVisit g ((nodesOf g).length + 1) u [] st
        else st) s) ∧
      (∀ v, cOrd (s.color v) ≤ cOrd ((ks.foldl (fun st u =>
        if st.color u = Color.white then
          dfsVisit g ((nodesOf g).length + 1) u [] st
        else st) s).color v)) ∧
      (∀ u ∈ ks, (ks.foldl (fun st u =>
        if st.color u = Color.white then
          dfsVisit g ((nodesOf g).length + 1) u [] st
        else st) s).color u = Color.black) := by
  intro ks
  induction ks with
  | nil =>
    intro _ s hng hdm hbl
    refine ⟨hng, hbl, fun v => le_refl _, ?_⟩
    intro u hu
    exact absurd hu (List.not_mem_nil u)
  | cons k ks' ihk =>
    intro hks s hng hdm hbl
    rw [List.foldl_cons]
    have hstep : ∃ s' : DfsSt,
        (if s.color k = Color.white then
          dfsVisit g ((nodesOf g).length + 1) k [] s
        else s) = s' ∧
        (∀ v, s'.color v ≠ Color.gray) ∧
        (∀ v, s'.color v ≠ Color.white → v ∈ nodesOf g) ∧
        BlackInv g s' ∧
        (∀ v, cOrd (s.color v) ≤ cOrd (s'.color v)) ∧
        s'.color k = Color.black := by
      by_cases hw : s.color k = Color.white
      · rw [if_pos hw]
        have hpost := dfsVisit_post g hwf ((nodesOf g).length + 1) k [] s
          ⟨fun v => by
            constructor
            · intro h
              exact absurd h (hng v)
            · intro h
              exact absurd h (List.not_mem_nil v),
            List.nodup_nil, hw, hdm, hks k (List.mem_cons_self _ _), hbl⟩
          (by have := wcount_le g s; omega)
        refine ⟨_, rfl, ?_, hpost.hdom, hpost.hblack, hpost.hmono,
          hpost.hblacku⟩
        intro v h
        exact absurd ((hpost.hgray v).mp h) (List.not_mem_nil v)
      · rw [if_neg hw]
        refine ⟨s, rfl, hng, hdm, hbl, fun v => le_refl _, ?_⟩
        cases hc : s.color k with
        | white => exact absurd hc hw
        | gray => exact absurd hc (hng k)
        | black => rfl
    obtain ⟨s', hs'eq, hng', hdm', hbl', hmono', hk'⟩ := hstep
    rw [hs'eq]
    obtain ⟨hng2, hbl2, hmono2, hkeys2⟩ :=
      ihk (fun u hu => hks u (List.mem_cons_of_mem _ hu)) s'
        hng' hdm' hbl'
    refine ⟨hng2, hbl2, ?_, ?_⟩
    · intro v
      exact le_trans (hmono' v) (hmono2 v)
    · intro u hu
      rcases List.mem_cons.mp hu with rfl | hu'
      · have h2 := hmono2 u
        rw [hk'] at h2
        exact (cOrd_two_iff _).mp h2
      · exact hkeys2 u hu'

theorem done_chain_desc (g : FileGraph) (done : List String)
    (hR : ∀ u v, isEdge g u v → u ∈ done →
      v ∈ done ∧ done.indexOf v < done.indexOf u) :
    ∀ c : List String, List.Chain' (fun a b => isEdge g a b) c →
      ∀ a, c.head? = some a → a ∈ done →
      ∀ b, c.getLast? = some b →
        b ∈ done ∧ (2 ≤ c.length → done.indexOf b < done.indexOf a) := by
  intro c
  induction c with
  | nil =>
    intro _ a ha
    simp at ha
  | cons x c' ih =>
    intro hch a ha hadone b hb
    have hax : a = x := by
      have : (x :: c').head? = some x := rfl
      rw [this, Option.some_inj] at ha
      exact ha.symm
    subst hax
    cases c' with
    | nil =>
      have hba : b = a := by
        have : ([a]).getLast? = some a := rfl
        rw [this, Option.some_inj] at hb
        exact hb.symm
      subst hba
      refine ⟨hadone, ?_⟩
      intro h2
      simp at h2
    | cons y c'' =>
      obtain ⟨hedge, hch'⟩ := List.chain'_cons.mp hch
      obtain ⟨hydone, hyidx⟩ := hR a y hedge hadone
      have hb' : (y :: c'').getLast? = some b := by
        rw [← List.getLast?_cons_cons]
        exact hb
      obtain ⟨hbdone, hbidx⟩ := ih hch' y rfl hydone b hb'
      refine ⟨hbdone, fun _ => ?_⟩
      cases c'' with
      | nil =>
        have hby : b = y := by
          have : ([y]).getLast? = some y := rfl
          rw [this, Option.some_inj] at hb'
          exact hb'.symm
        rw [hby]
        exact hyidx
      | cons z r =>
        have : done.indexOf b < done.indexOf y := by
          apply hbidx
          rw [List.length_cons, List.length_cons]
          omega
        omega

theorem ord_chain_asc (g : FileGraph) (ord : List String)
    (hR : ∀ u v, isEdge g u v → ord.indexOf u < ord.indexOf v) :
    ∀ c : List String, List.Chain' (fun a b => isEdge g a b) c →
      ∀ a, c.head? = some a → ∀ b, c.getLast? = some b →
        2 ≤ c.length → ord.indexOf a < ord.indexOf b := by
  intro c
  induction c with
  | nil =>
    intro _ a ha
    simp at ha
  | cons x c' ih =>
    intro hch a ha b hb hlen
    have hax : a = x := by
      have : (x :: c').head? = some x := rfl
      rw [this, Option.some_inj] at ha
      exact ha.symm
    subst hax
    cases c' with
    | nil => simp at hlen
    | cons y c'' =>
      obtain ⟨hedge, hch'⟩ := List.chain'_cons.mp hch
      have hxy := hR a y hedge
      have hb' : (y :: c'').getLast? = some b := by
        rw [← List.getLast?_cons_cons]
        exact hb
      cases c'' with
      | nil =>
        have hby : b = y := by
          have : ([y]).getLast? = some y := rfl
          rw [this, Option.some_inj] at hb'
          exact hb'.symm
        rw [hby]
        exact hxy
      | cons z r =>
        have := ih hch' y rfl b hb' (by
          rw [List.length_cons, List.length_cons]
          omega)
        omega

theorem findCyclesDfs_nil_no_cycle (g : FileGraph) (hwf : GraphWF g)
    (h : findCyclesDfs g = []) : ∀ c, ¬ RealCycle g c := by
  have hkeysmem : ∀ u ∈ g.map Prod.fst, u ∈ nodesOf g := by
    intro u hu
    obtain ⟨p, hp, hpu⟩ := List.mem_map.mp hu
    rw [← hpu]
    exact mem_nodesOf_key g p.1 p.2 hp
  obtain ⟨hng, hbl, hmono, hkeys⟩ :=
    findCyclesDfs_inv g hwf (g.map Prod.fst) hkeysmem
      { color := fun _ => Color.white, cycles := [] }
      (fun v hv => Color.noConfusion hv)
      (fun v hv => absurd rfl hv)
      ⟨[], List.nodup_nil,
        fun v => ⟨fun hv => Color.noConfusion hv,
          fun hv => absurd hv (List.not_mem_nil v)⟩,
        fun _ u v _ hu => absurd hu (List.not_mem_nil u)⟩
  unfold findCyclesDfs at h
  obtain ⟨done, hdnd, hdiff, hdcond⟩ := hbl
  have hR := hdcond h
  intro c hreal
  obtain ⟨hlen, hchain, hhl⟩ := hreal
  cases c with
  | nil => simp at hlen
  | cons x c' =>
    have hlast : (x :: c').getLast? = some x := by
      rw [← hhl]
      rfl
    have hxkey : x ∈ g.map Prod.fst := by
      cases c' with
      | nil => simp at hlen
      | cons y c'' =>
        obtain ⟨hedge, _⟩ := List.chain'_cons.mp hchain
        obtain ⟨vs, hmem, _⟩ := hedge
        exact List.mem_map_of_mem Prod.fst hmem
    have hxblack := hkeys x hxkey
    have hxdone : x ∈ done := (hdiff x).mp hxblack
    have := (done_chain_desc g done hR (x :: c') hchain x rfl hxdone
      x hlast).2 hlen
    omega

theorem predIter_succ (g : FileGraph) (order : List String) (v : String)
    (n : Nat) :
    predIter g order v (n + 1) =
      match predOf g order (predIter g order v n) with
      | some u => u
      | none => v :=
  rfl

theorem pred_exists (g : FileGraph) (order : List String) (v : String)
    (h : remCount g order v ≠ 0) :
    ∃ u, predOf g order v = some u ∧ isEdge g u v ∧ u ∉ order ∧
      u ∈ nodesOf g := by
  unfold remCount at h
  have hv : v ∈ (g.filter (fun p => decide (p.1 ∉ order))).flatMap
      Prod.snd := by
    by_contra hnv
    rw [List.count_eq_zero_of_not_mem hnv] at h
    exact h rfl
  rw [List.mem_flatMap] at hv
  obtain ⟨p, hp, hvp⟩ := hv
  rw [List.mem_filter, decide_eq_true_eq] at hp
  have hpred : (fun q : String × List String =>
      decide (q.1 ∉ order) && q.2.contains v) p = true := by
    rw [Bool.and_eq_true, decide_eq_true_eq]
    exact ⟨hp.2, by simpa using hvp⟩
  have hsome : (g.find? (fun q =>
      decide (q.1 ∉ order) && q.2.contains v)).isSome := by
    rw [List.find?_isSome]
    exact ⟨p, hp.1, hpred⟩
  obtain ⟨q, hq⟩ := Option.isSome_iff_exists.mp hsome
  have hqmem : q ∈ g := List.mem_of_find?_eq_some hq
  have hqprop := List.find?_some hq
  rw [Bool.and_eq_true, decide_eq_true_eq] at hqprop
  refine ⟨q.1, ?_, ⟨q.2, hqmem, ?_⟩, hqprop.1,
    mem_nodesOf_key g q.1 q.2 hqmem⟩
  · unfold predOf
    rw [hq]
    rfl
  · have := hqprop.2
    simpa using this

theorem toposort_fail_cycle (g : FileGraph) (hwf : GraphWF g)
    (h : (topological_sort g).1 = none) : ∃ c, RealCycle g c := by
  unfold topological_sort at h
  dsimp only at h
  by_cases hc : (kahnLoop g ((nodesOf g).length + 1)
      ((nodesOf g).filter (fun u => decide (indeg0 g u = 0)))
      (indeg0 g) []).length = (nodesOf g).length
  · rw [if_pos hc] at h
    simp at h
  · obtain ⟨indeg', inv⟩ := kahnLoop_inv g hwf ((nodesOf g).length + 1)
      _ _ [] (kahnInv_init g) (by simp)
    have hnodup : (kahnLoop g ((nodesOf g).length + 1)
        ((nodesOf g).filter (fun u => decide (indeg0 g u = 0)))
        (indeg0 g) []).Nodup := by
      have := inv.hnodup
      rwa [List.append_nil] at this
    have hsub : (kahnLoop g ((nodesOf g).length + 1)
        ((nodesOf g).filter (fun u => decide (indeg0 g u = 0)))
        (indeg0 g) []) ⊆ nodesOf g := by
      intro v hv
      exact inv.hsub v (by rwa [List.append_nil])
    generalize horder : kahnLoop g ((nodesOf g).length + 1)
        ((nodesOf g).filter (fun u => decide (indeg0 g u = 0)))
        (indeg0 g) [] = order at inv hnodup hsub hc
    have hlt : order.length < (nodesOf g).length :=
      lt_of_le_of_ne ((hnodup.subperm hsub).length_le) hc
    have hv0 : ∃ v0, v0 ∈ nodesOf g ∧ v0 ∉ order := by
      by_contra hno
      push_neg at hno
      have hsub2 : nodesOf g ⊆ order := fun v hv => hno v hv
      have := ((nodesOf_nodup g).subperm hsub2).length_le
      omega
    obtain ⟨v0, hv0n, hv0o⟩ := hv0
    have hstep : ∀ v, v ∈ nodesOf g → v ∉ order →
        ∃ u, predOf g order v = some u ∧ isEdge g u v ∧ u ∉ order ∧
          u ∈ nodesOf g := by
      intro v hvn hvo
      apply pred_exists
      intro hzero
      have hdeg := inv.hdeg v
      rw [hzero] at hdeg
      have hz : indeg' v = 0 := by exact_mod_cast hdeg
      have := inv.hzmem v hvn hz
      rw [List.append_nil] at this
      exact hvo this
    have hP : ∀ n, predIter g order v0 n ∈ nodesOf g ∧
        predIter g order v0 n ∉ order := by
      intro n
      induction n with
      | zero => exact ⟨hv0n, hv0o⟩
      | succ n ihn =>
        obtain ⟨u, hu, _, huo, hun⟩ := hstep _ ihn.1 ihn.2
        have heq : predIter g order v0 (n + 1) = u := by
          rw [predIter_succ, hu]
        rw [heq]
        exact ⟨hun, huo⟩
    have hE : ∀ n, isEdge g (predIter g order v0 (n + 1))
        (predIter g order v0 n) := by
      intro n
      obtain ⟨u, hu, hedge, _, _⟩ := hstep _ (hP n).1 (hP n).2
      have heq : predIter g order v0 (n + 1) = u := by
        rw [predIter_succ, hu]
      rw [heq]
      exact hedge
    have hmk : ∀ i j : Nat, i < j →
        predIter g order v0 i = predIter g order v0 j →
        ∃ c, RealCycle g c := by
      intro i j hij hfe
      refine ⟨walkList (predIter g order v0) i (j - i), ?_, ?_, ?_⟩
      · rw [walkList_length]
        omega
      · exact walkList_chain _ (predIter g order v0) i hE (j - i)
      · rw [walkList_head, walkList_last]
        have hj : i + (j - i) = j := by omega
        rw [hj, ← hfe]
    have hmaps : ∀ n ∈ Finset.range ((nodesOf g).length + 1),
        predIter g order v0 n ∈ (nodesOf g).toFinset := by
      intro n _
      rw [List.mem_toFinset]
      exact (hP n).1
    have hcard : (nodesOf g).toFinset.card <
        (Finset.range ((nodesOf g).length + 1)).card := by
      rw [Finset.card_range, List.toFinset_card_of_nodup (nodesOf_nodup g)]
      omega
    obtain ⟨i, hi, j, hj, hne, heq⟩ :=
      Finset.exists_ne_map_eq_of_card_lt_of_maps_to hcard hmaps
    rcases Nat.lt_or_ge i j with hij | hij
    · exact hmk i j hij heq
    · have hji : j < i := by omega
      exact hmk j i hji heq.symm

/-- C3: For every well-formed dependency graph, `find_cycles_dfs` returns
the empty list if and only if `topological_sort` returns a non-`None`
order containing every node of the graph exactly once.  Forward:
DFS-completeness (the blackening order of a cycle-free run is a reverse
topological order) plus the fact that a Kahn run that misses a node
yields a genuine cycle by iterating predecessors.  Backward: every cycle
the DFS records is a genuine cycle, which would contradict the
edge-respecting order returned by a successful sort. -/
theorem C3_find_cycles_iff_toposort (g : FileGraph) (hwf : GraphWF g) :
    findCyclesDfs g = [] ↔
      ∃ order, (topological_sort g).1 = some order ∧
        ∀ v, order.count v = if v ∈ nodesOf g then 1 else 0 := by
  constructor
  · intro h
    cases hts : (topological_sort g).1 with
    | some order =>
      refine ⟨order, rfl, ?_⟩
      have hperm := toposort_success_perm g hwf order hts
      intro v
      rw [hperm.count_eq]
      by_cases hv : v ∈ nodesOf g
      · rw [if_pos hv, List.count_eq_one_of_mem (nodesOf_nodup g) hv]
      · rw [if_neg hv, List.count_eq_zero_of_not_mem hv]
    | none =>
      exfalso
      obtain ⟨c, hcyc⟩ := toposort_fail_cycle g hwf hts
      exact findCyclesDfs_nil_no_cycle g hwf h c hcyc
  · intro ⟨order, hts, _⟩
    by_contra hne
    obtain ⟨c, hc⟩ := List.exists_mem_of_ne_nil _ hne
    have hreal := findCyclesDfs_sound g c hc
    have hasc : ∀ u v, isEdge g u v →
        order.indexOf u < order.indexOf v :=
      fun u v huv => (toposort_respects_edges g hwf order hts u v huv).2.2
    obtain ⟨hlen, hchain, hhl⟩ := hreal
    cases c with
    | nil => simp at hlen
    | cons x c' =>
      have hlast : (x :: c').getLast? = some x := by
        rw [← hhl]
        rfl
      have := ord_chain_asc g order hasc (x :: c') hchain x rfl x hlast hlen
      omega

/-- C3 witness: on the concrete acyclic two-node graph the
well-formedness hypothesis holds and the equivalence applies. -/
theorem C3_witness :
    GraphWF [("a", ["b"]), ("b", [])] ∧
    (findCyclesDfs [("a", ["b"]), ("b", [])] = [] ↔
      ∃ order, (topological_sort [("a", ["b"]), ("b", [])]).1 =
          some order ∧
        ∀ v, order.count v =
          if v ∈ nodesOf [("a", ["b"]), ("b", [])] then 1 else 0) :=
  ⟨⟨by decide, by decide⟩,
    C3_find_cycles_iff_toposort [("a", ["b"]), ("b", [])]
      ⟨by decide, by decide⟩⟩

end Pipeline
